import Mathlib

/-!
Verification of the JSON parser in `src/main.rs` (GyrosOfWar/json-rs).

The Rust source is shallowly embedded: the parser struct `JsonParser`
(character iterator, current line/column, one-character lookahead) becomes a
Lean structure over `List Char`; every parsing method becomes a total Lean
function threading that structure explicitly.  Rust `f64` numbers are
represented by their exact decimal value (`F64` below): the grammar accepted
by Rust's `str::parse::<f64>` is modelled exactly, while rounding to 64-bit
floats is abstracted away (no theorem below compares two distinct numeric
tokens, so the abstraction is never load-bearing).  `HashMap<String, JsonValue>` is
modelled as an association list in insertion order with the exact
`HashMap::insert` semantics (replace the value of an existing key in place,
otherwise append); `HashMap`'s unspecified iteration order is thereby fixed
to insertion order, which is the only place the model refines the source.
Rust panics (index misuse, `expect`) are modelled as `Option.none` results.

The mutually recursive parsing functions take a fuel parameter so that they
are structurally recursive; fuel `3 * remaining-input + 3` is always
sufficient (proved below as the totality lemmas), and the entry point
`parse` supplies exactly that much.
-/

/-- Error codes, from `enum ErrorCode` in `src/main.rs`. -/
inductive ErrorCode where
  | UnclosedStringLiteral
  | UnclosedArray
  | UnclosedObject
  | MissingColon
  | ExpectedBool
  | NumberParsing
  | ExpectedColon
  | EndOfFile
  | ExpectedNull
  | Other
deriving DecidableEq, Repr

/-- `struct JsonError`: an error code plus the 1-based line/column where the
error was raised. -/
structure JsonError where
  reason : ErrorCode
  line : Nat
  col : Nat
deriving DecidableEq, Repr

/-- The exact value of an accepted numeric token, `mantissa * 10 ^ exponent`,
kept canonical (zero is `⟨0, 0⟩`; otherwise the mantissa is not divisible by
ten), so that structural equality coincides with equality of the denoted
rational.  This replaces Rust's `f64` by the exact decimal value; the
rounding a 64-bit float would perform is abstracted away, and no theorem
below compares two distinct numeric tokens, so the abstraction is never
load-bearing. -/
structure F64 where
  mantissa : Int
  exponent : Int
deriving DecidableEq, BEq, Repr

/-- Move factors of ten from the mantissa into the exponent; the fuel is an
upper bound on how many factors can occur. -/
def strip_tens : Nat → Int → Int → Int × Int
  | 0, m, e => (m, e)
  | n + 1, m, e =>
    if m % 10 = 0 then strip_tens n (m / 10) (e + 1) else (m, e)

/-- Canonical `F64` for `m * 10 ^ e`. -/
def mkF64 (m : Int) (e : Int) : F64 :=
  if m = 0 then ⟨0, 0⟩
  else
    let (m', e') := strip_tens m.natAbs m e
    ⟨m', e'⟩

/-- `enum JsonValue`: the parsed value tree.  `Num` holds the exact decimal
value in place of Rust's `f64` (see `F64`); `Object` holds the
`HashMap<String, JsonValue>` as an insertion-ordered association list. -/
inductive JsonValue where
  | Null
  | Bool (b : Bool)
  | Num (n : F64)
  | Str (s : List Char)
  | Array (xs : List JsonValue)
  | Object (map : List (List Char × JsonValue))
deriving Repr

mutual

/-- Structural equality of values (`#[derive(PartialEq)]` on `JsonValue`),
written out because the nested lists defeat automatic derivation. -/
def valueBeq : JsonValue → JsonValue → Bool
  | .Null, .Null => true
  | .Bool a, .Bool b => a == b
  | .Num a, .Num b => decide (a = b)
  | .Str a, .Str b => a == b
  | .Array a, .Array b => valueBeqList a b
  | .Object a, .Object b => valueBeqMembers a b
  | _, _ => false

def valueBeqList : List JsonValue → List JsonValue → Bool
  | [], [] => true
  | a :: as', b :: bs' => valueBeq a b && valueBeqList as' bs'
  | _, _ => false

def valueBeqMembers :
    List (List Char × JsonValue) → List (List Char × JsonValue) → Bool
  | [], [] => true
  | (k1, v1) :: r1, (k2, v2) :: r2 =>
    k1 == k2 && valueBeq v1 v2 && valueBeqMembers r1 r2
  | _, _ => false

end

mutual

theorem valueBeq_iff : ∀ a b : JsonValue, valueBeq a b = true ↔ a = b
  | .Null, b => by cases b <;> simp [valueBeq]
  | .Bool a, b => by cases b <;> simp [valueBeq]
  | .Num a, b => by cases b <;> simp [valueBeq]
  | .Str a, b => by cases b <;> simp [valueBeq]
  | .Array a, b => by
    cases b <;> simp [valueBeq, valueBeqList_iff a _]
  | .Object a, b => by
    cases b <;> simp [valueBeq, valueBeqMembers_iff a _]

theorem valueBeqList_iff :
    ∀ a b : List JsonValue, valueBeqList a b = true ↔ a = b
  | [], b => by cases b <;> simp [valueBeqList]
  | a :: as', b => by
    cases b <;>
      simp [valueBeqList, valueBeq_iff a _, valueBeqList_iff as' _]

theorem valueBeqMembers_iff :
    ∀ a b : List (List Char × JsonValue), valueBeqMembers a b = true ↔ a = b
  | [], b => by cases b <;> simp [valueBeqMembers]
  | (k1, v1) :: r1, b => by
    cases b with
    | nil => simp [valueBeqMembers]
    | cons hd tl =>
      obtain ⟨k2, v2⟩ := hd
      simp [valueBeqMembers, valueBeq_iff v1 _,
        valueBeqMembers_iff r1 _, and_assoc]

end

instance : DecidableEq JsonValue := fun a b =>
  decidable_of_iff _ (valueBeq_iff a b)

instance : Inhabited JsonValue := ⟨JsonValue.Null⟩

/-- `type JsonResult = Result<JsonValue, JsonError>`. -/
abbrev JsonResult := Except JsonError JsonValue

instance : DecidableEq JsonResult := fun a b =>
  match a, b with
  | Except.ok x, Except.ok y =>
    if h : x = y then isTrue (by rw [h])
    else isFalse (fun hh => h (by injection hh))
  | Except.error x, Except.error y =>
    if h : x = y then isTrue (by rw [h])
    else isFalse (fun hh => h (by injection hh))
  | Except.ok _, Except.error _ => isFalse (fun h => Except.noConfusion h)
  | Except.error _, Except.ok _ => isFalse (fun h => Except.noConfusion h)

/-- `HashMap::insert` (used by `parse_object`): if the key is present its value
is replaced, otherwise the pair is appended.  The list order is insertion
order. -/
def map_insert (m : List (List Char × JsonValue)) (k : List Char) (v : JsonValue) :
    List (List Char × JsonValue) :=
  if m.any (fun kv => kv.1 == k) then
    m.map (fun kv => if kv.1 == k then (k, v) else kv)
  else m ++ [(k, v)]

/-- `HashMap::get` (used by `JsonValue::find`). -/
def map_get (m : List (List Char × JsonValue)) (k : List Char) : Option JsonValue :=
  (m.find? (fun kv => kv.1 == k)).map (fun kv => kv.2)

namespace JsonValue

/-- `JsonValue::find`: key lookup, `None` when the receiver is not an object
or the key is absent. -/
def find : JsonValue → List Char → Option JsonValue
  | .Object map, idx => map_get map idx
  | _, _ => none

/-- `impl Index<usize> for JsonValue`.  Rust panics on a non-array receiver and
on an out-of-range index; both panics are modelled as `none`. -/
def index_usize : JsonValue → Nat → Option JsonValue
  | .Array vec, index => vec.get? index
  | _, _ => none

/-- `impl Index<&str> for JsonValue`: `self.find(idx).expect(..)`.  The
`expect` panic on `None` is modelled as `none`. -/
def index_str (v : JsonValue) (idx : List Char) : Option JsonValue :=
  v.find idx

end JsonValue

/-- Hexadecimal digits of `n` (lowercase), as used by Rust's `\u{...}`
escapes. -/
def hex_digits (n : Nat) : List Char :=
  Nat.toDigits 16 n

/-- Rust's per-character string escaping as used by the `{:?}` (`Debug`)
formatting of `&str` in `print_json`: tab, carriage return, newline,
backslash, single quote and double quote become two-character escapes,
printable ASCII is emitted verbatim, and everything else becomes
`\u{hex}`. -/
def escape_default (c : Char) : List Char :=
  if c = '\t' then ['\\', 't']
  else if c = '\r' then ['\\', 'r']
  else if c = '\n' then ['\\', 'n']
  else if c = '\\' then ['\\', '\\']
  else if c = '\'' then ['\\', '\'']
  else if c = '"' then ['\\', '"']
  else if 0x20 ≤ c.toNat ∧ c.toNat ≤ 0x7e then [c]
  else '\\' :: 'u' :: Char.ofNat 0x7b :: (hex_digits c.toNat ++ [Char.ofNat 0x7d])

/-- The body of `format!("{:?}", s)` for a string `s`: each character
escaped (the surrounding quotes are added by the caller). -/
def escape_str (s : List Char) : List Char :=
  s.flatMap escape_default

/-- `format!("{}", n)` on an `f64`.  Rust prints the shortest decimal that
round-trips; that algorithm is outside this embedding, so only the integral
case (where Rust prints the plain digit string) is rendered faithfully; a
non-integral value is rendered as its mantissa, `.`, and exponent, which no
theorem below relies on. -/
def print_f64 (n : F64) : List Char :=
  let digits := fun (i : Int) =>
    if i < 0 then '-' :: Nat.toDigits 10 i.natAbs else Nat.toDigits 10 i.natAbs
  if 0 ≤ n.exponent then
    digits (n.mantissa * 10 ^ n.exponent.natAbs)
  else
    digits n.mantissa ++ '.' :: digits n.exponent

mutual

/-- `print_json`: serialize a value back to JSON text.  `Null`, booleans and
numbers print via `format!("{}", ..)`; strings and object keys print via
`format!("{:?}", ..)` (Rust `Debug` escaping, `escape_default`); arrays and
objects print each item followed by `,`, then `result.pop()` removes the
last character (the trailing comma - or the opening bracket when the
container is empty) before the closing bracket. -/
def print_json : JsonValue → List Char
  | JsonValue.Null => "null".toList
  | JsonValue.Bool b => if b then "true".toList else "false".toList
  | JsonValue.Num n => print_f64 n
  | JsonValue.Str s => '"' :: (escape_str s ++ ['"'])
  | JsonValue.Array values => (('[' :: print_items values).dropLast) ++ [']']
  | JsonValue.Object map => (('{' :: print_members map).dropLast) ++ ['}']

/-- The `for v in values.iter()` loop of `print_json`'s array case. -/
def print_items : List JsonValue → List Char
  | [] => []
  | v :: vs => print_json v ++ ',' :: print_items vs

/-- The `for (k, v) in map.iter()` loop of `print_json`'s object case; the
association list is iterated in insertion order (see the header comment). -/
def print_members : List (List Char × JsonValue) → List Char
  | [] => []
  | (k, v) :: ms =>
    '"' :: (escape_str k ++ '"' :: ':' :: (print_json v ++ ',' :: print_members ms))

end

/-- `struct JsonParser`: the remaining character iterator, the 1-based
line/column of the lookahead, and the lookahead character itself
(`none` = end of input). -/
structure JsonParser where
  iter : List Char
  line : Nat
  col : Nat
  ch : Option Char
deriving DecidableEq, Repr

namespace JsonParser

/-- Characters not yet consumed (lookahead plus iterator); used only to size
fuel and state proofs, not by the parser itself. -/
def rem (p : JsonParser) : Nat :=
  (if p.ch.isSome then 1 else 0) + p.iter.length

/-- `consume_char`: advance the iterator by one, update line/column (a newline
lookahead increments the line and resets the column, anything else -
including end of input - increments the column), and return the new
character (`'\x00'` at end of input). -/
def consume_char (p : JsonParser) : Char × JsonParser :=
  let c := p.iter.head?
  let p' : JsonParser :=
    if c = some '\n' then
      { iter := p.iter.tail, line := p.line + 1, col := 1, ch := c }
    else
      { iter := p.iter.tail, line := p.line, col := p.col + 1, ch := c }
  (c.getD '\x00', p')

/-- `JsonParser::new`: line 1, column 0, a dummy `'\x00'` lookahead, then one
`consume_char`. -/
def new (input : List Char) : JsonParser :=
  (consume_char { iter := input, line := 1, col := 0, ch := some '\x00' }).2

/-- `error`: package the reason with the current position. -/
def error (p : JsonParser) (reason : ErrorCode) : JsonResult :=
  Except.error { reason := reason, line := p.line, col := p.col }

/-- `ch_is`: is the lookahead equal to `c`? -/
def ch_is (p : JsonParser) (c : Char) : Bool :=
  p.ch == some c

/-- `eof`: is the lookahead exhausted? -/
def eof (p : JsonParser) : Bool :=
  p.ch.isNone

/-- `ch_is_digit`: ASCII digit test on the lookahead (with the `'\x00'`
default of the source's `unwrap_or`). -/
def ch_is_digit (p : JsonParser) : Bool :=
  decide ('0' ≤ p.ch.getD '\x00' ∧ p.ch.getD '\x00' ≤ '9')

/-- `ch_is_whitespace`: space, newline, tab or carriage return. -/
def ch_is_whitespace (p : JsonParser) : Bool :=
  p.ch_is ' ' || p.ch_is '\n' || p.ch_is '\t' || p.ch_is '\r'

/-- The loop of `consume_whitespace`, made structural on a fuel argument. -/
def consume_whitespace_fuel : Nat → JsonParser → JsonParser
  | 0, p => p
  | n + 1, p =>
    if p.ch_is_whitespace then consume_whitespace_fuel n (p.consume_char).2 else p

/-- `consume_whitespace`: skip the maximal run of whitespace.  Each iteration
consumes one character, so fuel `rem p + 1` never runs out. -/
def consume_whitespace (p : JsonParser) : JsonParser :=
  consume_whitespace_fuel (p.rem + 1) p

/-- The matching loop of `consume_text`: compare the lookahead with each
character of `text` in turn, consuming on match.  On a mismatch Rust returns
`None` while keeping the partially advanced parser; the pair returned here
carries that parser in both outcomes.  (As in the source, the pushed
characters are the values returned by `consume_char`, i.e. the characters
*after* each match.) -/
def consume_text_go : List Char → JsonParser → Option (List Char) × JsonParser
  | [], p => (some [], p)
  | c :: cs, p =>
    if p.ch_is c then
      let (d, p1) := p.consume_char
      let (r, p2) := consume_text_go cs p1
      (r.map (fun buf => d :: buf), p2)
    else (none, p)

/-- `consume_text`: skip whitespace, match `text` character by character, and
(on success only) skip trailing whitespace. -/
def consume_text (text : List Char) (p : JsonParser) : Option (List Char) × JsonParser :=
  let p1 := p.consume_whitespace
  let (r, p2) := consume_text_go text p1
  match r with
  | some buf => (some buf, p2.consume_whitespace)
  | none => (none, p2)

/-- The character class consumed by `consume_num`: digits, `.`, `e`, `E`,
`-`, `+`. -/
def num_char (c : Char) : Bool :=
  decide ('0' ≤ c ∧ c ≤ '9') || c == '.' || c == 'e' || c == 'E' || c == '-' || c == '+'

/-- The loop of `consume_num`, structural on fuel. -/
def consume_num_fuel : Nat → JsonParser → List Char × JsonParser
  | 0, p => ([], p)
  | n + 1, p =>
    if p.ch_is_digit || p.ch_is '.' || p.ch_is 'e' || p.ch_is 'E' || p.ch_is 'E'
        || p.ch_is '-' || p.ch_is '+' then
      let c := p.ch.getD '\x00'
      let (acc, p') := consume_num_fuel n (p.consume_char).2
      (c :: acc, p')
    else ([], p)

/-- `consume_num`: skip whitespace, then take the maximal run of numeric
characters.  Fuel `rem + 1` never runs out. -/
def consume_num (p : JsonParser) : List Char × JsonParser :=
  let p1 := p.consume_whitespace
  consume_num_fuel (p1.rem + 1) p1

end JsonParser

/-- ASCII digit test used by the `f64` grammar model. -/
def char_digit (c : Char) : Bool :=
  decide ('0' ≤ c ∧ c ≤ '9')

/-- Numeric value of a digit run (most significant first). -/
def digits_val (ds : List Char) : Nat :=
  ds.foldl (fun a c => a * 10 + (c.toNat - '0'.toNat)) 0

/-- The exponent-and-rest tail of the `f64` grammar: either the end of the
token, or `e`/`E`, an optional sign and a nonempty digit run ending the
token.  `mant * 10 ^ exp0` is the value read so far. -/
def rust_f64_exp (mant : Int) (exp0 : Int) : List Char → Option F64
  | [] => some (mkF64 mant exp0)
  | e :: r =>
    if e == 'e' || e == 'E' then
      let (esgn, r1) : Int × List Char :=
        match r with
        | '+' :: r' => (1, r')
        | '-' :: r' => (-1, r')
        | r' => (1, r')
      let es := r1.takeWhile char_digit
      let r2 := r1.dropWhile char_digit
      if es.isEmpty || !r2.isEmpty then none
      else some (mkF64 mant (exp0 + esgn * (digits_val es : Int)))
    else none

/-- Rust's `str::parse::<f64>` on the tokens producible by `consume_num`
(alphabet `0-9 . e E + -`), returning the exact decimal value instead of the
rounded `f64`.  Grammar (from the standard library docs):
`Sign? (Digits '.'? Exp? | Digits '.' Digits Exp? | '.' Digits Exp?)` with
`Exp = (e|E) Sign? Digits`.  The `inf`/`infinity`/`nan` forms need letters
outside the token alphabet and are therefore unreachable here. -/
def rust_parse_f64 (s : List Char) : Option F64 :=
  let (sgn, s1) : Int × List Char :=
    match s with
    | '+' :: r => (1, r)
    | '-' :: r => (-1, r)
    | r => (1, r)
  let ds := s1.takeWhile char_digit
  let s2 := s1.dropWhile char_digit
  match s2 with
  | '.' :: r =>
    let fs := r.takeWhile char_digit
    let s3 := r.dropWhile char_digit
    if ds.isEmpty && fs.isEmpty then none
    else
      rust_f64_exp (sgn * (digits_val ds * 10 ^ fs.length + digits_val fs : Nat))
        (-(fs.length : Int)) s3
  | _ =>
    if ds.isEmpty then none
    else rust_f64_exp (sgn * (digits_val ds : Nat)) 0 s2

namespace JsonParser

/-- `parse_null`: a thin wrapper over `consume_text "null"`. -/
def parse_null (p : JsonParser) : JsonResult × JsonParser :=
  match consume_text "null".toList p with
  | (some _, p') => (Except.ok JsonValue.Null, p')
  | (none, p') => (p'.error ErrorCode.ExpectedNull, p')

/-- `parse_num`: skip whitespace; if the lookahead is a digit or `-`, take the
maximal numeric token and delegate it to the `f64` parser, otherwise (or when
the token is rejected) report `NumberParsing`. -/
def parse_num (p : JsonParser) : JsonResult × JsonParser :=
  let p1 := p.consume_whitespace
  if p1.ch_is_digit || p1.ch_is '-' then
    let (num_str, p2) := consume_num p1
    match rust_parse_f64 num_str with
    | some n => (Except.ok (JsonValue.Num n), p2)
    | none => (p2.error ErrorCode.NumberParsing, p2)
  else (p1.error ErrorCode.NumberParsing, p1)

/-- The scanning loop of `parse_string` (after the opening quote), structural
on fuel: stop with success at a closing quote (consuming it), with failure at
end of input, and otherwise accumulate the character verbatim.  No escape
processing. -/
def string_scan_fuel : Nat → JsonParser → Bool × List Char × JsonParser
  | 0, p => (false, [], p)
  | n + 1, p =>
    if p.eof then (false, [], p)
    else if p.ch_is '"' then (true, [], (p.consume_char).2)
    else
      let c := p.ch.getD '\x00'
      let (b, s, p') := string_scan_fuel n (p.consume_char).2
      (b, c :: s, p')

/-- `parse_string`: skip whitespace; require an opening `"`; scan verbatim to
the closing `"`; report `UnclosedStringLiteral` (at the position where the
scan stopped) when input ends first, or when there is no opening quote. -/
def parse_string (p : JsonParser) : JsonResult × JsonParser :=
  let p1 := p.consume_whitespace
  if p1.ch_is '"' then
    let p2 := (p1.consume_char).2
    let (found_end, s, p3) := string_scan_fuel (p2.rem + 1) p2
    if found_end then (Except.ok (JsonValue.Str s), p3)
    else (p3.error ErrorCode.UnclosedStringLiteral, p3)
  else (p1.error ErrorCode.UnclosedStringLiteral, p1)

/-- `parse_bool`: skip whitespace; on an `f` lookahead run
`consume_text "false"` and return `Ok(Bool(false))` *regardless of whether the
keyword matched* (the source discards the `Option`); likewise `t` /
`"true"`; otherwise report `ExpectedBool`. -/
def parse_bool (p : JsonParser) : JsonResult × JsonParser :=
  let p1 := p.consume_whitespace
  if p1.ch_is 'f' then
    let (_, p2) := consume_text "false".toList p1
    (Except.ok (JsonValue.Bool false), p2)
  else if p1.ch_is 't' then
    let (_, p2) := consume_text "true".toList p1
    (Except.ok (JsonValue.Bool true), p2)
  else (p1.error ErrorCode.ExpectedBool, p1)

/-- The `for result in p` loop of `parse_value`: return the first `Ok`,
remembering the most recent error; after the loop, return the remembered
error.  The unreachable `most_recent_error.expect("Bug!")` panic (empty
result list and no remembered error) is modelled as `none`. -/
def most_recent_loop : List JsonResult → Option JsonError → Option JsonResult
  | [], acc => acc.map Except.error
  | r :: rs, acc =>
    match r with
    | Except.ok v => some (Except.ok v)
    | Except.error e => most_recent_loop rs (some e)

mutual

/-- `parse_value`: evaluate all six productions in order - boolean, string,
number, null, array, object - each on the state the previous one left behind
(the source builds the eager `vec![...]`), then return the first success or
the most recent (= last) error.  `none` = out of fuel. -/
def parse_value : Nat → JsonParser → Option (JsonResult × JsonParser)
  | 0, _ => none
  | n + 1, p =>
    let (r1, p1) := parse_bool p
    let (r2, p2) := parse_string p1
    let (r3, p3) := parse_num p2
    let (r4, p4) := parse_null p3
    match parse_array n p4 with
    | none => none
    | some (r5, p5) =>
      match parse_object n p5 with
      | none => none
      | some (r6, p6) =>
        match most_recent_loop [r1, r2, r3, r4, r5, r6] none with
        | some r => some (r, p6)
        | none => none

/-- `parse_array`: require `[` (else `UnclosedArray` without consuming), then
loop. -/
def parse_array : Nat → JsonParser → Option (JsonResult × JsonParser)
  | 0, _ => none
  | n + 1, p =>
    if p.ch_is '[' then parse_array_loop n (p.consume_char).2 []
    else some (p.error ErrorCode.UnclosedArray, p)

/-- The loop of `parse_array`: parse a value (propagating its error), then
continue past `,`, finish at `]`, and otherwise loop again immediately (the
source's `loop` has no other exit). -/
def parse_array_loop : Nat → JsonParser → List JsonValue → Option (JsonResult × JsonParser)
  | 0, _, _ => none
  | n + 1, p, array =>
    match parse_value n p with
    | none => none
    | some (Except.error e, p') => some (Except.error e, p')
    | some (Except.ok v, p') =>
      let array' := array ++ [v]
      if p'.ch_is ',' then parse_array_loop n (p'.consume_char).2 array'
      else if p'.ch_is ']' then
        some (Except.ok (JsonValue.Array array'), (p'.consume_char).2)
      else parse_array_loop n p' array'

/-- `parse_object`: `EndOfFile` at end of input; skip whitespace; require `{`
(else `UnclosedObject`), then loop. -/
def parse_object : Nat → JsonParser → Option (JsonResult × JsonParser)
  | 0, _ => none
  | n + 1, p =>
    if p.eof then some (p.error ErrorCode.EndOfFile, p)
    else
      let p1 := p.consume_whitespace
      if p1.ch_is '{' then parse_object_loop n (p1.consume_char).2 []
      else some (p1.error ErrorCode.UnclosedObject, p1)

/-- The loop of `parse_object`: whitespace, a string key (its error
propagates; the source's `into_string().unwrap()` cannot panic since a
successful `parse_string` is always `Str`, and that unreachable panic is
modelled as `none`), whitespace, a `:` (else `ExpectedColon`), whitespace,
consume the colon, a value (error propagates), insert, whitespace, then
continue past `,`, finish at `}`, otherwise loop again. -/
def parse_object_loop : Nat → JsonParser → List (List Char × JsonValue) →
    Option (JsonResult × JsonParser)
  | 0, _, _ => none
  | n + 1, p, object =>
    let p1 := p.consume_whitespace
    match parse_string p1 with
    | (Except.error e, p2) => some (Except.error e, p2)
    | (Except.ok kv, p2) =>
      match kv with
      | JsonValue.Str key_string =>
        let p3 := p2.consume_whitespace
        if !(p3.ch_is ':') then some (p3.error ErrorCode.ExpectedColon, p3)
        else
          let p4 := p3.consume_whitespace
          let p5 := (p4.consume_char).2
          match parse_value n p5 with
          | none => none
          | some (Except.error e, p6) => some (Except.error e, p6)
          | some (Except.ok v, p6) =>
            let object' := map_insert object key_string v
            let p7 := p6.consume_whitespace
            if p7.ch_is ',' then parse_object_loop n (p7.consume_char).2 object'
            else if p7.ch_is '}' then
              some (Except.ok (JsonValue.Object object'), (p7.consume_char).2)
            else parse_object_loop n p7 object'
      | _ => none

end

/-- `parse`: delegate to `parse_value` once.  Fuel `3 * rem + 3` is always
sufficient (the totality lemmas below). -/
def parse (p : JsonParser) : Option (JsonResult × JsonParser) :=
  parse_value (3 * p.rem + 3) p

end JsonParser

/-- Parse an input string from scratch: build the parser and run `parse`,
keeping only the `JsonResult` (the result Rust's `parse` returns). -/
def parse_text (s : List Char) : Option JsonResult :=
  (JsonParser.parse (JsonParser.new s)).map (fun r => r.1)

/-- Is a stored result a parse error?  (Convenience for statements.) -/
def result_is_error : Option JsonResult → Bool
  | some (Except.error _) => true
  | _ => false

example : parse_text "true".toList = some (Except.ok (JsonValue.Bool true)) := by decide
example : parse_text "null".toList = some (Except.ok JsonValue.Null) := by decide
example : parse_text "1".toList = some (Except.ok (JsonValue.Num ⟨1, 0⟩)) := by decide

/-! ## Association-map lemmas (HashMap model) -/

/-- Looking up a key at a matching head. -/
theorem map_get_cons_pos (hd : List Char × JsonValue) (tl : List (List Char × JsonValue))
    (k : List Char) (h : (hd.1 == k) = true) : map_get (hd :: tl) k = some hd.2 := by
  unfold map_get
  have hf : List.find? (fun kv => kv.1 == k) (hd :: tl) = some hd :=
    List.find?_cons_of_pos tl h
  rw [hf]
  rfl

/-- Looking up a key past a non-matching head. -/
theorem map_get_cons_neg (hd : List Char × JsonValue) (tl : List (List Char × JsonValue))
    (k : List Char) (h : (hd.1 == k) = false) : map_get (hd :: tl) k = map_get tl k := by
  unfold map_get
  have hf : List.find? (fun kv => kv.1 == k) (hd :: tl)
      = List.find? (fun kv => kv.1 == k) tl :=
    List.find?_cons_of_neg tl (by simp [h])
  rw [hf]

/-- Inserting binds the key: looking the key up after `map_insert` yields the
newly inserted value, whether or not the key was already present (last write
wins). -/
theorem map_get_insert :
    ∀ (m : List (List Char × JsonValue)) (k : List Char) (v : JsonValue),
      map_get (map_insert m k v) k = some v
  | [], k, v => by simp [map_insert, map_get]
  | hd :: tl, k, v => by
    by_cases h : (hd.1 == k) = true
    · have hany : ((hd :: tl).any fun kv => kv.1 == k) = true := by
        simp only [List.any_cons, h, Bool.true_or]
      have h2 : map_insert (hd :: tl) k v
          = (k, v) :: tl.map (fun kv => if kv.1 == k then (k, v) else kv) := by
        simp [map_insert, hany, h]
        exact fun hc => absurd (by simpa using h : hd.1 = k) hc
      rw [h2, map_get_cons_pos (k, v) _ _ (by simp)]
    · have hb : (hd.1 == k) = false := by rw [Bool.not_eq_true] at h; exact h
      have h2 : map_insert (hd :: tl) k v = hd :: map_insert tl k v := by
        by_cases htl : (tl.any fun kv => kv.1 == k) = true
        · simp [map_insert, List.any_cons, htl, hb]
          exact fun hc => absurd hc (by simpa using hb)
        · have hfl : (tl.any fun kv => kv.1 == k) = false := by
            rw [Bool.not_eq_true] at htl; exact htl
          simp [map_insert, List.any_cons, hfl, hb]
      rw [h2, map_get_cons_neg _ _ _ hb, map_get_insert tl k v]

/-! ## One-step unfolding lemmas for the fueled mutual parsers

The auto-generated equations for the mutual block are unwieldy, so each
function gets a definitional one-step lemma, proved by `rfl`, which all
later proofs rewrite with. -/

theorem parse_value_zero (p : JsonParser) : JsonParser.parse_value 0 p = none := rfl

theorem parse_value_step (n : Nat) (p : JsonParser) :
    JsonParser.parse_value (n + 1) p =
      (let (r1, p1) := JsonParser.parse_bool p
       let (r2, p2) := JsonParser.parse_string p1
       let (r3, p3) := JsonParser.parse_num p2
       let (r4, p4) := JsonParser.parse_null p3
       match JsonParser.parse_array n p4 with
       | none => none
       | some (r5, p5) =>
         match JsonParser.parse_object n p5 with
         | none => none
         | some (r6, p6) =>
           match JsonParser.most_recent_loop [r1, r2, r3, r4, r5, r6] none with
           | some r => some (r, p6)
           | none => none) := rfl

theorem parse_array_zero (p : JsonParser) : JsonParser.parse_array 0 p = none := rfl

theorem parse_array_step (n : Nat) (p : JsonParser) :
    JsonParser.parse_array (n + 1) p =
      (if p.ch_is '[' then JsonParser.parse_array_loop n (p.consume_char).2 []
       else some (p.error ErrorCode.UnclosedArray, p)) := rfl

theorem parse_array_loop_zero (p : JsonParser) (array : List JsonValue) :
    JsonParser.parse_array_loop 0 p array = none := rfl

theorem parse_array_loop_step (n : Nat) (p : JsonParser) (array : List JsonValue) :
    JsonParser.parse_array_loop (n + 1) p array =
      (match JsonParser.parse_value n p with
       | none => none
       | some (Except.error e, p') => some (Except.error e, p')
       | some (Except.ok v, p') =>
         let array' := array ++ [v]
         if p'.ch_is ',' then JsonParser.parse_array_loop n (p'.consume_char).2 array'
         else if p'.ch_is ']' then
           some (Except.ok (JsonValue.Array array'), (p'.consume_char).2)
         else JsonParser.parse_array_loop n p' array') := rfl

theorem parse_object_zero (p : JsonParser) : JsonParser.parse_object 0 p = none := rfl

theorem parse_object_step (n : Nat) (p : JsonParser) :
    JsonParser.parse_object (n + 1) p =
      (if p.eof then some (p.error ErrorCode.EndOfFile, p)
       else
         let p1 := p.consume_whitespace
         if p1.ch_is '{' then JsonParser.parse_object_loop n (p1.consume_char).2 []
         else some (p1.error ErrorCode.UnclosedObject, p1)) := rfl

theorem parse_object_loop_zero (p : JsonParser) (object : List (List Char × JsonValue)) :
    JsonParser.parse_object_loop 0 p object = none := rfl

theorem parse_object_loop_step (n : Nat) (p : JsonParser)
    (object : List (List Char × JsonValue)) :
    JsonParser.parse_object_loop (n + 1) p object =
      (let p1 := p.consume_whitespace
       match JsonParser.parse_string p1 with
       | (Except.error e, p2) => some (Except.error e, p2)
       | (Except.ok kv, p2) =>
         match kv with
         | JsonValue.Str key_string =>
           let p3 := p2.consume_whitespace
           if !(p3.ch_is ':') then some (p3.error ErrorCode.ExpectedColon, p3)
           else
             let p4 := p3.consume_whitespace
             let p5 := (p4.consume_char).2
             match JsonParser.parse_value n p5 with
             | none => none
             | some (Except.error e, p6) => some (Except.error e, p6)
             | some (Except.ok v, p6) =>
               let object' := map_insert object key_string v
               let p7 := p6.consume_whitespace
               if p7.ch_is ',' then JsonParser.parse_object_loop n (p7.consume_char).2 object'
               else if p7.ch_is '}' then
                 some (Except.ok (JsonValue.Object object'), (p7.consume_char).2)
               else JsonParser.parse_object_loop n p7 object'
         | _ => none) := rfl

/-- `most_recent_loop` on exactly six results: the first success, and
otherwise the sixth (last) result. -/
theorem most_recent_loop_spec (r1 r2 r3 r4 r5 r6 : JsonResult) :
    JsonParser.most_recent_loop [r1, r2, r3, r4, r5, r6] none
      = some (match r1 with
       | Except.ok v => Except.ok v
       | Except.error _ =>
         match r2 with
         | Except.ok v => Except.ok v
         | Except.error _ =>
           match r3 with
           | Except.ok v => Except.ok v
           | Except.error _ =>
             match r4 with
             | Except.ok v => Except.ok v
             | Except.error _ =>
               match r5 with
               | Except.ok v => Except.ok v
               | Except.error _ => r6) := by
  cases r1 <;> cases r2 <;> cases r3 <;> cases r4 <;> cases r5 <;> cases r6 <;> rfl


/-! ## Parser-state machinery for the general theorems -/

/-- The position update `consume_char` performs when the new lookahead is
`oc`: a newline starts the next line at column 1, anything else (including
end of input) moves one column right. -/
def step_pos (q : Nat × Nat) (oc : Option Char) : Nat × Nat :=
  if oc = some '\n' then (q.1 + 1, 1) else (q.1, q.2 + 1)

/-- The parser state whose lookahead plus iterator reads exactly `l`, at
line/column `q`. -/
def at_pos (q : Nat × Nat) (l : List Char) : JsonParser :=
  { iter := l.tail, line := q.1, col := q.2, ch := l.head? }

/-- The whitespace class of `ch_is_whitespace`. -/
def is_ws_char (c : Char) : Bool :=
  c == ' ' || c == '\n' || c == '\t' || c == '\r'

/-- A run of whitespace characters. -/
def ws_only (l : List Char) : Bool := l.all is_ws_char

/-- The head of `l` (if any) is not whitespace. -/
def head_not_ws (l : List Char) : Bool :=
  match l.head? with
  | some c => !is_ws_char c
  | none => true

/-- The head of `l` (if any) is outside `consume_num`'s character class. -/
def head_not_num (l : List Char) : Bool :=
  match l.head? with
  | some c => !JsonParser.num_char c
  | none => true

theorem at_pos_ch (q : Nat × Nat) (l : List Char) : (at_pos q l).ch = l.head? := rfl

theorem at_pos_iter (q : Nat × Nat) (l : List Char) : (at_pos q l).iter = l.tail := rfl

theorem at_pos_line (q : Nat × Nat) (l : List Char) : (at_pos q l).line = q.1 := rfl

theorem at_pos_col (q : Nat × Nat) (l : List Char) : (at_pos q l).col = q.2 := rfl

theorem at_pos_rem (q : Nat × Nat) (l : List Char) : (at_pos q l).rem = l.length := by
  cases l <;> simp [at_pos, JsonParser.rem] <;> omega

/-- Any parser state is an `at_pos` state over the list its lookahead and
iterator spell out. -/
theorem eq_at_pos (p : JsonParser) (c : Char) (h : p.ch = some c) :
    p = at_pos (p.line, p.col) (c :: p.iter) := by
  cases p
  simp_all [at_pos]

theorem new_at_pos (s : List Char) :
    JsonParser.new s = at_pos (step_pos (1, 0) s.head?) s := by
  unfold JsonParser.new JsonParser.consume_char at_pos step_pos
  by_cases h : s.head? = some '\n' <;> simp [h]

theorem consume_char_at (q : Nat × Nat) (l : List Char) :
    (at_pos q l).consume_char
      = ((l.tail.head?).getD '\x00', at_pos (step_pos q l.tail.head?) l.tail) := by
  match l with
  | [] => rfl
  | [c] => rfl
  | c :: d :: t =>
    by_cases h : d = '\n'
    · subst h; rfl
    · simp [JsonParser.consume_char, at_pos, step_pos, h]

theorem ch_is_at (q : Nat × Nat) (l : List Char) (c : Char) :
    (at_pos q l).ch_is c = (l.head? == some c) := rfl

theorem eof_at (q : Nat × Nat) (l : List Char) : (at_pos q l).eof = l.isEmpty := by
  cases l <;> rfl

theorem ch_is_whitespace_at (q : Nat × Nat) (l : List Char) :
    (at_pos q l).ch_is_whitespace = !head_not_ws l := by
  cases l with
  | nil => rfl
  | cons c l' =>
    simp [JsonParser.ch_is_whitespace, JsonParser.ch_is, at_pos, head_not_ws, is_ws_char]

theorem ch_is_whitespace_some (p : JsonParser) (h : p.ch_is_whitespace = true) :
    p.ch.isSome := by
  cases hc : p.ch with
  | some c => rfl
  | none => simp [JsonParser.ch_is_whitespace, JsonParser.ch_is, hc] at h

theorem rem_consume_char (p : JsonParser) : (p.consume_char).2.rem = p.iter.length := by
  unfold JsonParser.consume_char JsonParser.rem
  cases hi : p.iter with
  | nil => simp
  | cons c t =>
    by_cases h : c = '\n'
    · subst h; simp; omega
    · simp [h]; omega

theorem rem_pos_of_some (p : JsonParser) (h : p.ch.isSome) : 0 < p.rem := by
  unfold JsonParser.rem
  simp [h]

theorem cwf_stable : ∀ n m : Nat, ∀ p : JsonParser, p.rem < n → p.rem < m →
    JsonParser.consume_whitespace_fuel n p = JsonParser.consume_whitespace_fuel m p := by
  intro n
  induction n with
  | zero => intro m p h1 _; omega
  | succ n ih =>
    intro m p h1 h2
    cases m with
    | zero => omega
    | succ m =>
      show (if p.ch_is_whitespace then JsonParser.consume_whitespace_fuel n (p.consume_char).2
            else p)
          = (if p.ch_is_whitespace then JsonParser.consume_whitespace_fuel m (p.consume_char).2
            else p)
      by_cases hws : p.ch_is_whitespace = true
      · have hlt : (p.consume_char).2.rem < p.rem := by
          rw [rem_consume_char]
          have hs := ch_is_whitespace_some p hws
          unfold JsonParser.rem
          simp [hs]
        rw [if_pos hws, if_pos hws]
        exact ih m _ (by omega) (by omega)
      · rw [if_neg hws, if_neg hws]

/-- The loop equation of `consume_whitespace`, with the fuel plumbing
discharged. -/
theorem consume_whitespace_eq (p : JsonParser) :
    p.consume_whitespace
      = if p.ch_is_whitespace then (p.consume_char).2.consume_whitespace else p := by
  show JsonParser.consume_whitespace_fuel (p.rem + 1) p = _
  have hstep :
      JsonParser.consume_whitespace_fuel (p.rem + 1) p
        = if p.ch_is_whitespace
            then JsonParser.consume_whitespace_fuel p.rem (p.consume_char).2 else p := rfl
  rw [hstep]
  by_cases hws : p.ch_is_whitespace = true
  · rw [if_pos hws, if_pos hws]
    have hlt : (p.consume_char).2.rem < p.rem := by
      rw [rem_consume_char]
      have hs := ch_is_whitespace_some p hws
      unfold JsonParser.rem
      simp [hs]
    exact cwf_stable _ _ _ hlt (by omega)
  · rw [if_neg hws, if_neg hws]

/-- `consume_whitespace` does nothing when the lookahead is not
whitespace. -/
theorem consume_ws_noop (q : Nat × Nat) (k : List Char) (hk : head_not_ws k = true) :
    (at_pos q k).consume_whitespace = at_pos q k := by
  rw [consume_whitespace_eq, ch_is_whitespace_at, hk]
  rfl

/-- `consume_whitespace` consumes exactly a maximal whitespace run. -/
theorem consume_ws_at : ∀ ws : List Char, ∀ q : Nat × Nat, ∀ k : List Char,
    ws_only ws = true → head_not_ws k = true →
    ∃ q', (at_pos q (ws ++ k)).consume_whitespace = at_pos q' k
  | [], q, k, _, hk => ⟨q, by simpa using consume_ws_noop q k hk⟩
  | c :: ws', q, k, hws, hk => by
    simp only [ws_only, List.all_cons, Bool.and_eq_true] at hws
    rw [consume_whitespace_eq, ch_is_whitespace_at]
    have hh : head_not_ws ((c :: ws') ++ k) = false := by
      simp [head_not_ws, hws.1]
    rw [hh]
    simp only [Bool.not_false, if_true, consume_char_at]
    have hws' : ws_only ws' = true := hws.2
    simpa using consume_ws_at ws' (step_pos q (ws' ++ k).head?) k hws' hk

/-! ## Token-level lemmas -/

theorem head_not_ws_append (text x : List Char) (hne : text ≠ [])
    (h : head_not_ws text = true) : head_not_ws (text ++ x) = true := by
  cases text with
  | nil => exact absurd rfl hne
  | cons c t => simpa [head_not_ws] using h

theorem num_char_not_ws (c : Char) (h : JsonParser.num_char c = true) :
    is_ws_char c = false := by
  by_contra hws
  rw [Bool.not_eq_false] at hws
  have : ((c = ' ' ∨ c = '\n') ∨ c = '\t') ∨ c = '\r' := by
    simpa [is_ws_char] using hws
  rcases this with ((h' | h') | h') | h' <;> subst h' <;> simp [JsonParser.num_char] at h

theorem head_not_num_of_not_ws_head : ∀ l : List Char,
    head_not_ws l = false → head_not_num l = true := by
  intro l h
  cases l with
  | nil => simp [head_not_ws] at h
  | cons c t =>
    simp only [head_not_ws, List.head?_cons, Bool.not_eq_false'] at h
    simp only [head_not_num, List.head?_cons, Bool.not_eq_true']
    by_cases hn : JsonParser.num_char c = true
    · rw [num_char_not_ws c hn] at h
      exact absurd h (by simp)
    · simpa using hn

theorem ctg_match : ∀ text rest : List Char, ∀ q : Nat × Nat,
    ∃ buf q', JsonParser.consume_text_go text (at_pos q (text ++ rest))
      = (some buf, at_pos q' rest)
  | [], rest, q => ⟨[], q, rfl⟩
  | c :: text', rest, q => by
    obtain ⟨buf, q', h⟩ := ctg_match text' rest (step_pos q ((text' ++ rest).head?))
    refine ⟨((text' ++ rest).head?).getD '\x00' :: buf, q', ?_⟩
    show JsonParser.consume_text_go (c :: text') (at_pos q (c :: (text' ++ rest))) = _
    unfold JsonParser.consume_text_go
    rw [ch_is_at]
    simp only [List.head?_cons, beq_self_eq_true, if_true, consume_char_at]
    simp only [List.tail_cons, h]
    rfl

theorem ctg_miss (text k : List Char) (c : Char) (q : Nat × Nat)
    (ht : text.head? = some c) (hk : k.head? ≠ some c) :
    JsonParser.consume_text_go text (at_pos q k) = (none, at_pos q k) := by
  cases text with
  | nil => simp at ht
  | cons c0 t =>
    simp only [List.head?_cons, Option.some.injEq] at ht
    subst ht
    unfold JsonParser.consume_text_go
    rw [ch_is_at]
    have : (k.head? == some c0) = false := by
      simpa using hk
    rw [this]
    rfl

/-- `consume_text` on a full keyword match: leading whitespace, the keyword,
then trailing whitespace are consumed, landing exactly at `k`. -/
theorem consume_text_match (text ws0 ws1 k : List Char) (q : Nat × Nat)
    (hw0 : ws_only ws0 = true) (hw1 : ws_only ws1 = true)
    (htext : head_not_ws text = true) (htne : text ≠ [])
    (hk : head_not_ws k = true) :
    ∃ buf q', JsonParser.consume_text text (at_pos q (ws0 ++ (text ++ (ws1 ++ k))))
      = (some buf, at_pos q' k) := by
  unfold JsonParser.consume_text
  obtain ⟨q1, h1⟩ := consume_ws_at ws0 q (text ++ (ws1 ++ k)) hw0
    (head_not_ws_append text (ws1 ++ k) htne htext)
  rw [h1]
  obtain ⟨buf, q2, h2⟩ := ctg_match text (ws1 ++ k) q1
  simp only [h2]
  obtain ⟨q3, h3⟩ := consume_ws_at ws1 q2 k hw1 hk
  exact ⟨buf, q3, by simp only [h3]⟩

/-- `consume_text` on a first-character mismatch: only the leading whitespace
is consumed. -/
theorem consume_text_miss (text ws0 k : List Char) (c : Char) (q : Nat × Nat)
    (hw0 : ws_only ws0 = true) (hk : head_not_ws k = true)
    (ht : text.head? = some c) (hne : k.head? ≠ some c) :
    ∃ q', JsonParser.consume_text text (at_pos q (ws0 ++ k)) = (none, at_pos q' k) := by
  unfold JsonParser.consume_text
  obtain ⟨q1, h1⟩ := consume_ws_at ws0 q k hw0 hk
  rw [h1]
  simp only [ctg_miss text k c q1 ht hne]
  exact ⟨q1, rfl⟩

theorem num_guard_at (q : Nat × Nat) (l : List Char) :
    ((at_pos q l).ch_is_digit || (at_pos q l).ch_is '.' || (at_pos q l).ch_is 'e'
      || (at_pos q l).ch_is 'E' || (at_pos q l).ch_is 'E' || (at_pos q l).ch_is '-'
      || (at_pos q l).ch_is '+') = !head_not_num l := by
  cases l with
  | nil => rfl
  | cons c t =>
    simp only [JsonParser.ch_is_digit, JsonParser.ch_is, at_pos, List.head?_cons,
      head_not_num, JsonParser.num_char, char_digit, Bool.not_not]
    simp [Option.getD]

theorem cnf_at : ∀ tok k : List Char, ∀ q : Nat × Nat, ∀ n : Nat,
    tok.length < n → tok.all JsonParser.num_char = true → head_not_num k = true →
    ∃ q', JsonParser.consume_num_fuel n (at_pos q (tok ++ k)) = (tok, at_pos q' k)
  | [], k, q, n + 1, _, _, hk => by
    refine ⟨q, ?_⟩
    simp only [List.nil_append]
    show (if _ then _ else _) = _
    rw [num_guard_at q k, hk]
    rfl
  | c :: tok', k, q, n + 1, hn, hall, hk => by
    simp only [List.all_cons, Bool.and_eq_true] at hall
    obtain ⟨q', h⟩ := cnf_at tok' k (step_pos q ((tok' ++ k).head?)) n
      (by simpa using Nat.lt_of_succ_lt_succ hn) hall.2 hk
    refine ⟨q', ?_⟩
    show (if _ then _ else _) = _
    rw [num_guard_at q ((c :: tok') ++ k)]
    have hh : head_not_num ((c :: tok') ++ k) = false := by
      simp [head_not_num, hall.1]
    rw [hh]
    simp only [Bool.not_false, if_true, consume_char_at]
    simp only [List.cons_append, List.tail_cons, List.head?_cons, h, at_pos_ch]
    rfl

/-- `consume_num` takes exactly the maximal numeric token. -/
theorem consume_num_at (tok k : List Char) (q : Nat × Nat) (hne : tok ≠ [])
    (hall : tok.all JsonParser.num_char = true) (hk : head_not_num k = true) :
    ∃ q', JsonParser.consume_num (at_pos q (tok ++ k)) = (tok, at_pos q' k) := by
  unfold JsonParser.consume_num
  have hnws : head_not_ws (tok ++ k) = true := by
    cases tok with
    | nil => exact absurd rfl hne
    | cons c t =>
      have : JsonParser.num_char c = true := by
        simp only [List.all_cons, Bool.and_eq_true] at hall
        exact hall.1
      simp [head_not_ws, num_char_not_ws c this]
  rw [consume_ws_noop q (tok ++ k) hnws]
  have hlen : (tok ++ k).length < (at_pos q (tok ++ k)).rem + 1 := by
    rw [at_pos_rem]
    omega
  exact cnf_at tok k q _ (by rw [at_pos_rem]; simp; omega) hall hk

/-! ## String-scan and production-level lemmas -/

/-- The position at which the unterminated-string scan starting at `q` over
`l` stops (one `consume_char` per scanned character plus the final one that
hits end of input). -/
def scan_end_pos (q : Nat × Nat) : List Char → Nat × Nat
  | [] => q
  | _ :: l' => List.foldl step_pos q (l'.map some ++ [none])

theorem scan_end_pos_cons (q : Nat × Nat) (c : Char) (l' : List Char) :
    scan_end_pos q (c :: l') = scan_end_pos (step_pos q l'.head?) l' := by
  cases l' with
  | nil => rfl
  | cons d l'' =>
    simp only [scan_end_pos, List.map_cons, List.cons_append, List.foldl_cons,
      List.head?_cons]

theorem ssf_ok : ∀ content rest : List Char, ∀ q : Nat × Nat, ∀ n : Nat,
    content.length < n → content.all (fun c => !(c == '"')) = true →
    ∃ q', JsonParser.string_scan_fuel n (at_pos q (content ++ '"' :: rest))
      = (true, content, at_pos q' rest)
  | [], rest, q, n + 1, _, _ => by
    refine ⟨step_pos q rest.head?, ?_⟩
    simp only [List.nil_append]
    show (if _ then _ else if _ then _ else _) = _
    rw [eof_at, ch_is_at]
    simp only [List.head?_cons, List.isEmpty_cons, beq_self_eq_true, if_true, if_false,
      Bool.false_eq_true, consume_char_at, List.tail_cons]
  | c :: content', rest, q, n + 1, hn, hq => by
    simp only [List.all_cons, Bool.and_eq_true] at hq
    obtain ⟨q', ih⟩ := ssf_ok content' rest (step_pos q ((content' ++ '"' :: rest).head?)) n
      (by simpa using Nat.lt_of_succ_lt_succ hn) hq.2
    refine ⟨q', ?_⟩
    show (if _ then _ else if _ then _ else _) = _
    rw [eof_at, ch_is_at]
    simp only [List.cons_append, List.head?_cons, List.isEmpty_cons, if_false,
      Bool.false_eq_true, consume_char_at, List.tail_cons, at_pos_ch]
    rw [if_neg (by simpa using hq.1)]
    simp only [ih]
    rfl

theorem ssf_unclosed : ∀ l : List Char, ∀ q : Nat × Nat, ∀ n : Nat,
    l.length < n → l.all (fun c => !(c == '"')) = true →
    JsonParser.string_scan_fuel n (at_pos q l)
      = (false, l, at_pos (scan_end_pos q l) [])
  | [], q, n + 1, _, _ => by
    show (if _ then _ else if _ then _ else _) = _
    rw [eof_at]
    rfl
  | c :: l', q, n + 1, hn, hq => by
    simp only [List.all_cons, Bool.and_eq_true] at hq
    have ih := ssf_unclosed l' (step_pos q l'.head?) n
      (Nat.lt_of_succ_lt_succ hn) hq.2
    show (if _ then _ else if _ then _ else _) = _
    rw [eof_at, ch_is_at]
    simp only [List.head?_cons, List.isEmpty_cons, if_false, Bool.false_eq_true,
      consume_char_at, List.tail_cons]
    rw [if_neg (by simpa using hq.1)]
    simp only [ih, scan_end_pos_cons]
    rfl

/-- `parse_string` on a well-formed quoted string: whitespace, opening quote,
the verbatim content and the closing quote are consumed; anything may
follow. -/
theorem parse_string_ok (ws content rest : List Char) (q : Nat × Nat)
    (hw : ws_only ws = true) (hc : content.all (fun c => !(c == '"')) = true) :
    ∃ q', JsonParser.parse_string (at_pos q (ws ++ ('"' :: (content ++ '"' :: rest))))
      = (Except.ok (JsonValue.Str content), at_pos q' rest) := by
  unfold JsonParser.parse_string
  obtain ⟨q1, h1⟩ := consume_ws_at ws q ('"' :: (content ++ '"' :: rest)) hw (by rfl)
  rw [h1]
  have hcq : (at_pos q1 ('"' :: (content ++ '"' :: rest))).ch_is '"' = true := by
    rw [ch_is_at]; rfl
  simp only [hcq, if_true, consume_char_at, List.tail_cons, List.head?_cons, at_pos_rem]
  obtain ⟨q', hscan⟩ := ssf_ok content rest
    (step_pos q1 (content ++ '"' :: rest).head?) ((content ++ '"' :: rest).length + 1)
    (by simp only [List.length_append, List.length_cons]; omega) hc
  simp only [hscan]
  exact ⟨q', rfl⟩

/-- `parse_string` with no opening quote: only the leading whitespace is
consumed; the `UnclosedStringLiteral` error carries the post-whitespace
position. -/
theorem parse_string_fail (ws k : List Char) (q : Nat × Nat)
    (hw : ws_only ws = true) (hk : head_not_ws k = true) (hq : k.head? ≠ some '"') :
    ∃ q', JsonParser.parse_string (at_pos q (ws ++ k))
      = (Except.error ⟨ErrorCode.UnclosedStringLiteral, q'.1, q'.2⟩, at_pos q' k) := by
  unfold JsonParser.parse_string
  obtain ⟨q1, h1⟩ := consume_ws_at ws q k hw hk
  rw [h1]
  have hcq : (at_pos q1 k).ch_is '"' = false := by
    rw [ch_is_at]; simpa using hq
  simp only [hcq, Bool.false_eq_true, if_false]
  exact ⟨q1, rfl⟩

/-- `parse_bool` when the first non-whitespace character is neither `f` nor
`t`. -/
theorem parse_bool_fail (ws k : List Char) (q : Nat × Nat)
    (hw : ws_only ws = true) (hk : head_not_ws k = true)
    (hf : k.head? ≠ some 'f') (ht : k.head? ≠ some 't') :
    ∃ q', JsonParser.parse_bool (at_pos q (ws ++ k))
      = (Except.error ⟨ErrorCode.ExpectedBool, q'.1, q'.2⟩, at_pos q' k) := by
  unfold JsonParser.parse_bool
  obtain ⟨q1, h1⟩ := consume_ws_at ws q k hw hk
  rw [h1]
  have h2 : (at_pos q1 k).ch_is 'f' = false := by rw [ch_is_at]; simpa using hf
  have h3 : (at_pos q1 k).ch_is 't' = false := by rw [ch_is_at]; simpa using ht
  simp only [h2, h3, Bool.false_eq_true, if_false]
  exact ⟨q1, rfl⟩

/-- `parse_bool` on the full keyword `true` (plus trailing whitespace, eaten
by `consume_text`). -/
theorem parse_bool_true (ws0 ws1 k : List Char) (q : Nat × Nat)
    (hw0 : ws_only ws0 = true) (hw1 : ws_only ws1 = true)
    (hk : head_not_ws k = true) :
    ∃ q', JsonParser.parse_bool (at_pos q (ws0 ++ ("true".toList ++ (ws1 ++ k))))
      = (Except.ok (JsonValue.Bool true), at_pos q' k) := by
  have htl : "true".toList = ['t', 'r', 'u', 'e'] := rfl
  unfold JsonParser.parse_bool
  rw [htl]
  obtain ⟨q1, h1⟩ := consume_ws_at ws0 q (['t', 'r', 'u', 'e'] ++ (ws1 ++ k)) hw0 (by rfl)
  rw [h1]
  have h2 : (at_pos q1 (['t', 'r', 'u', 'e'] ++ (ws1 ++ k))).ch_is 'f' = false := by
    rw [ch_is_at]; rfl
  have h3 : (at_pos q1 (['t', 'r', 'u', 'e'] ++ (ws1 ++ k))).ch_is 't' = true := by
    rw [ch_is_at]; rfl
  simp only [h2, h3, Bool.false_eq_true, if_false, if_true]
  obtain ⟨buf, q', hct⟩ := consume_text_match ['t', 'r', 'u', 'e'] [] ws1 k q1 rfl hw1
    (by rfl) (by simp) hk
  simp only [List.nil_append] at hct
  simp only [hct]
  exact ⟨q', rfl⟩

/-- `parse_bool` on the full keyword `false`. -/
theorem parse_bool_false (ws0 ws1 k : List Char) (q : Nat × Nat)
    (hw0 : ws_only ws0 = true) (hw1 : ws_only ws1 = true)
    (hk : head_not_ws k = true) :
    ∃ q', JsonParser.parse_bool (at_pos q (ws0 ++ ("false".toList ++ (ws1 ++ k))))
      = (Except.ok (JsonValue.Bool false), at_pos q' k) := by
  have hfl : "false".toList = ['f', 'a', 'l', 's', 'e'] := rfl
  unfold JsonParser.parse_bool
  rw [hfl]
  obtain ⟨q1, h1⟩ := consume_ws_at ws0 q (['f', 'a', 'l', 's', 'e'] ++ (ws1 ++ k)) hw0
    (by rfl)
  rw [h1]
  have h2 : (at_pos q1 (['f', 'a', 'l', 's', 'e'] ++ (ws1 ++ k))).ch_is 'f' = true := by
    rw [ch_is_at]; rfl
  simp only [h2, if_true]
  obtain ⟨buf, q', hct⟩ := consume_text_match ['f', 'a', 'l', 's', 'e'] [] ws1 k q1 rfl hw1
    (by rfl) (by simp) hk
  simp only [List.nil_append] at hct
  simp only [hct]
  exact ⟨q', rfl⟩

/-- `parse_null` on the full keyword `null`. -/
theorem parse_null_ok (ws0 ws1 k : List Char) (q : Nat × Nat)
    (hw0 : ws_only ws0 = true) (hw1 : ws_only ws1 = true)
    (hk : head_not_ws k = true) :
    ∃ q', JsonParser.parse_null (at_pos q (ws0 ++ ("null".toList ++ (ws1 ++ k))))
      = (Except.ok JsonValue.Null, at_pos q' k) := by
  unfold JsonParser.parse_null
  obtain ⟨buf, q', h⟩ := consume_text_match "null".toList ws0 ws1 k q hw0 hw1 (by rfl)
    (by simp) hk
  simp only [h]
  exact ⟨q', rfl⟩

/-- `parse_null` when the first non-whitespace character is not `n`. -/
theorem parse_null_fail (ws k : List Char) (q : Nat × Nat)
    (hw : ws_only ws = true) (hk : head_not_ws k = true)
    (hn : k.head? ≠ some 'n') :
    ∃ q', JsonParser.parse_null (at_pos q (ws ++ k))
      = (Except.error ⟨ErrorCode.ExpectedNull, q'.1, q'.2⟩, at_pos q' k) := by
  unfold JsonParser.parse_null
  obtain ⟨q', h⟩ := consume_text_miss "null".toList ws k 'n' q hw hk (by rfl) hn
  simp only [h]
  exact ⟨q', rfl⟩

/-- Does `l` start with a character `parse_num` accepts (digit or `-`)? -/
def head_num_start (l : List Char) : Bool :=
  match l.head? with
  | some c => char_digit c || c == '-'
  | none => false

theorem parse_num_guard_at (q : Nat × Nat) (l : List Char) :
    ((at_pos q l).ch_is_digit || (at_pos q l).ch_is '-') = head_num_start l := by
  cases l with
  | nil => rfl
  | cons c t =>
    simp only [JsonParser.ch_is_digit, JsonParser.ch_is, at_pos, List.head?_cons,
      head_num_start, char_digit]
    simp [Option.getD]

/-- `parse_num` on a maximal token accepted by the `f64` grammar. -/
theorem parse_num_ok (ws tok rest : List Char) (q : Nat × Nat) (x : F64)
    (hw : ws_only ws = true) (hne : tok ≠ [])
    (hstart : head_num_start tok = true)
    (hall : tok.all JsonParser.num_char = true)
    (hx : rust_parse_f64 tok = some x)
    (hrest : head_not_num rest = true) :
    ∃ q', JsonParser.parse_num (at_pos q (ws ++ (tok ++ rest)))
      = (Except.ok (JsonValue.Num x), at_pos q' rest) := by
  unfold JsonParser.parse_num
  have hnws : head_not_ws (tok ++ rest) = true := by
    cases tok with
    | nil => exact absurd rfl hne
    | cons c t =>
      have : JsonParser.num_char c = true := by
        simp only [List.all_cons, Bool.and_eq_true] at hall
        exact hall.1
      simp [head_not_ws, num_char_not_ws c this]
  obtain ⟨q1, h1⟩ := consume_ws_at ws q (tok ++ rest) hw hnws
  rw [h1]
  have hs : ((at_pos q1 (tok ++ rest)).ch_is_digit
      || (at_pos q1 (tok ++ rest)).ch_is '-') = true := by
    rw [parse_num_guard_at]
    cases tok with
    | nil => exact absurd rfl hne
    | cons c t => simpa [head_num_start] using hstart
  simp only [hs, if_true]
  obtain ⟨q', h2⟩ := consume_num_at tok rest q1 hne hall hrest
  simp only [h2, hx]
  exact ⟨q', rfl⟩

/-- `parse_num` when the first non-whitespace character is neither a digit
nor `-`. -/
theorem parse_num_fail (ws k : List Char) (q : Nat × Nat)
    (hw : ws_only ws = true) (hk : head_not_ws k = true)
    (hs : head_num_start k = false) :
    ∃ q', JsonParser.parse_num (at_pos q (ws ++ k))
      = (Except.error ⟨ErrorCode.NumberParsing, q'.1, q'.2⟩, at_pos q' k) := by
  unfold JsonParser.parse_num
  obtain ⟨q1, h1⟩ := consume_ws_at ws q k hw hk
  rw [h1]
  have hg : ((at_pos q1 k).ch_is_digit || (at_pos q1 k).ch_is '-') = false := by
    rw [parse_num_guard_at]; exact hs
  simp only [hg, Bool.false_eq_true, if_false]
  exact ⟨q1, rfl⟩

/-- `parse_array` when the lookahead is not `[` (no whitespace skipping, no
consumption). -/
theorem parse_array_fail (n : Nat) (k : List Char) (q : Nat × Nat)
    (hk : k.head? ≠ some '[') :
    JsonParser.parse_array (n + 1) (at_pos q k)
      = some (Except.error ⟨ErrorCode.UnclosedArray, q.1, q.2⟩, at_pos q k) := by
  rw [parse_array_step]
  have h2 : (at_pos q k).ch_is '[' = false := by rw [ch_is_at]; simpa using hk
  simp only [h2, Bool.false_eq_true, if_false]
  rfl

/-- `parse_object` at end of input: the distinct `EndOfFile` error, nothing
consumed. -/
theorem parse_object_fail_eof (n : Nat) (q : Nat × Nat) :
    JsonParser.parse_object (n + 1) (at_pos q [])
      = some (Except.error ⟨ErrorCode.EndOfFile, q.1, q.2⟩, at_pos q []) := by
  rw [parse_object_step]
  rfl

/-- `parse_object` when the first non-whitespace character is not `{` (and
the input is not empty): `UnclosedObject` at the post-whitespace position. -/
theorem parse_object_fail (n : Nat) (ws k : List Char) (q : Nat × Nat)
    (hw : ws_only ws = true) (hk : head_not_ws k = true)
    (hb : k.head? ≠ some '{') (hne : ws ++ k ≠ []) :
    ∃ q', JsonParser.parse_object (n + 1) (at_pos q (ws ++ k))
      = some (Except.error ⟨ErrorCode.UnclosedObject, q'.1, q'.2⟩, at_pos q' k) := by
  rw [parse_object_step]
  have hemp : (at_pos q (ws ++ k)).eof = false := by
    rw [eof_at]
    cases hws : ws ++ k with
    | nil => exact absurd hws hne
    | cons c t => rfl
  obtain ⟨q1, h1⟩ := consume_ws_at ws q k hw hk
  simp only [hemp, Bool.false_eq_true, if_false, h1]
  have h2 : (at_pos q1 k).ch_is '{' = false := by rw [ch_is_at]; simpa using hb
  simp only [h2, Bool.false_eq_true, if_false]
  exact ⟨q1, rfl⟩

/-! ## Whitespace-decorated documents

A `Doc` is a document this parser accepts, together with explicit whitespace
runs at every between-token position the claims talk about: before each
array element / object key, around `:`, and after each element value.
`renderDoc` spells it out as text, `valDoc` is the `JsonValue` it denotes
(whitespace-independent by construction), and `wfDoc` checks the side
conditions (whitespace runs are whitespace, string contents avoid `"`,
numeric tokens are maximal `f64`-accepted tokens, and - the condition the C4
counterexample forces - an array element that is an object carries no
whitespace after its closing brace). -/

mutual

inductive Doc where
  | null : Doc
  | bool (b : Bool) : Doc
  | num (tok : List Char) : Doc
  | str (s : List Char) : Doc
  | arr (es : DocElems) : Doc
  | obj (ms : DocMembers) : Doc

inductive DocElems where
  | last (ws0 : List Char) (t : Doc) (ws1 : List Char) : DocElems
  | cons (ws0 : List Char) (t : Doc) (ws1 : List Char) (rest : DocElems) : DocElems

inductive DocMembers where
  | last (wsK key wsC ws0 : List Char) (t : Doc) (ws1 : List Char) : DocMembers
  | cons (wsK key wsC ws0 : List Char) (t : Doc) (ws1 : List Char)
      (rest : DocMembers) : DocMembers

end

mutual

def renderDoc : Doc → List Char
  | .null => "null".toList
  | .bool true => "true".toList
  | .bool false => "false".toList
  | .num tok => tok
  | .str s => '"' :: (s ++ ['"'])
  | .arr es => '[' :: renderElems es
  | .obj ms => '{' :: renderMembers ms

def renderElems : DocElems → List Char
  | .last ws0 t ws1 => ws0 ++ (renderDoc t ++ (ws1 ++ [']']))
  | .cons ws0 t ws1 rest => ws0 ++ (renderDoc t ++ (ws1 ++ (',' :: renderElems rest)))

def renderMembers : DocMembers → List Char
  | .last wsK key wsC ws0 t ws1 =>
    wsK ++ ('"' :: (key ++ ('"' :: (wsC ++ (':' :: (ws0 ++ (renderDoc t ++ (ws1 ++ ['}']))))))))
  | .cons wsK key wsC ws0 t ws1 rest =>
    wsK ++ ('"' :: (key ++ ('"' :: (wsC ++ (':' :: (ws0 ++ (renderDoc t
      ++ (ws1 ++ (',' :: renderMembers rest)))))))))

end

mutual

def valDoc : Doc → JsonValue
  | .null => JsonValue.Null
  | .bool b => JsonValue.Bool b
  | .num tok => JsonValue.Num ((rust_parse_f64 tok).getD ⟨0, 0⟩)
  | .str s => JsonValue.Str s
  | .arr es => JsonValue.Array (valElems es)
  | .obj ms => JsonValue.Object (valMembers [] ms)

def valElems : DocElems → List JsonValue
  | .last _ t _ => [valDoc t]
  | .cons _ t _ rest => valDoc t :: valElems rest

def valMembers : List (List Char × JsonValue) → DocMembers → List (List Char × JsonValue)
  | acc, .last _ key _ _ t _ => map_insert acc key (valDoc t)
  | acc, .cons _ key _ _ t _ rest => valMembers (map_insert acc key (valDoc t)) rest

end

def isObjDoc : Doc → Bool
  | .obj _ => true
  | _ => false

mutual

def wfDoc : Doc → Bool
  | .null => true
  | .bool _ => true
  | .num tok =>
    head_num_start tok && tok.all JsonParser.num_char && (rust_parse_f64 tok).isSome
  | .str s => s.all (fun c => !(c == '"'))
  | .arr es => wfElems es
  | .obj ms => wfMembers ms

def wfElems : DocElems → Bool
  | .last ws0 t ws1 =>
    ws_only ws0 && wfDoc t && ws_only ws1 && (!isObjDoc t || ws1.isEmpty)
  | .cons ws0 t ws1 rest =>
    ws_only ws0 && wfDoc t && ws_only ws1 && (!isObjDoc t || ws1.isEmpty) && wfElems rest

def wfMembers : DocMembers → Bool
  | .last wsK key wsC ws0 t ws1 =>
    ws_only wsK && key.all (fun c => !(c == '"')) && ws_only wsC && ws_only ws0
      && wfDoc t && ws_only ws1
  | .cons wsK key wsC ws0 t ws1 rest =>
    ws_only wsK && key.all (fun c => !(c == '"')) && ws_only wsC && ws_only ws0
      && wfDoc t && ws_only ws1 && wfMembers rest

end

/-- Can `k` legally follow a value inside a container: empty, or led by a
separator / closing bracket? -/
def sep_ok (k : List Char) : Bool :=
  match k.head? with
  | none => true
  | some c => c == ',' || c == ']' || c == '}'

theorem sep_ok_cases (k : List Char) (h : sep_ok k = true) :
    k.head? = none ∨ k.head? = some ',' ∨ k.head? = some ']' ∨ k.head? = some '}' := by
  cases hk : k.head? with
  | none => exact Or.inl rfl
  | some c =>
    unfold sep_ok at h
    rw [hk] at h
    rcases Bool.or_eq_true_iff.mp h with h' | h'
    · rcases Bool.or_eq_true_iff.mp h' with h'' | h''
      · have hc : c = ',' := by simpa using h''
        subst hc
        exact Or.inr (Or.inl rfl)
      · have hc : c = ']' := by simpa using h''
        subst hc
        exact Or.inr (Or.inr (Or.inl rfl))
    · have hc : c = '}' := by simpa using h'
      subst hc
      exact Or.inr (Or.inr (Or.inr rfl))

theorem sep_ok_head_ne (k : List Char) (h : sep_ok k = true) (c : Char)
    (h1 : c ≠ ',') (h2 : c ≠ ']') (h3 : c ≠ '}') : k.head? ≠ some c := by
  rcases sep_ok_cases k h with h' | h' | h' | h' <;> rw [h'] <;> simp
  · exact fun hc => h1 hc.symm
  · exact fun hc => h2 hc.symm
  · exact fun hc => h3 hc.symm

theorem sep_ok_not_ws (k : List Char) (h : sep_ok k = true) : head_not_ws k = true := by
  rcases sep_ok_cases k h with h' | h' | h' | h' <;> simp [head_not_ws, h'] <;> decide

theorem sep_ok_not_num (k : List Char) (h : sep_ok k = true) : head_not_num k = true := by
  rcases sep_ok_cases k h with h' | h' | h' | h' <;> simp [head_not_num, h'] <;> decide

theorem sep_ok_num_start (k : List Char) (h : sep_ok k = true) :
    head_num_start k = false := by
  rcases sep_ok_cases k h with h' | h' | h' | h' <;> simp [head_num_start, h'] <;> decide

theorem is_ws_not_num (c : Char) (h : is_ws_char c = true) :
    JsonParser.num_char c = false := by
  have : ((c = ' ' ∨ c = '\n') ∨ c = '\t') ∨ c = '\r' := by
    simpa [is_ws_char] using h
  rcases this with ((h' | h') | h') | h' <;> subst h' <;> decide

theorem ws_sep_not_num (ws1 k : List Char) (hw : ws_only ws1 = true)
    (hs : sep_ok k = true) : head_not_num (ws1 ++ k) = true := by
  cases ws1 with
  | nil => simpa using sep_ok_not_num k hs
  | cons c t =>
    simp only [ws_only, List.all_cons, Bool.and_eq_true] at hw
    simp [head_not_num, is_ws_not_num c hw.1]

theorem num_start_head (l : List Char) (h : head_num_start l = true) :
    ∃ c t, l = c :: t ∧ (char_digit c || c == '-') = true := by
  cases l with
  | nil => simp [head_num_start] at h
  | cons c t => exact ⟨c, t, rfl, by simpa [head_num_start] using h⟩

theorem num_start_ne (l : List Char) (h : head_num_start l = true) (c : Char)
    (h1 : char_digit c = false) (h2 : c ≠ '-') : l.head? ≠ some c := by
  obtain ⟨c0, t, rfl, hc0⟩ := num_start_head l h
  simp only [List.head?_cons, ne_eq, Option.some.injEq]
  intro hc
  subst hc
  rcases Bool.or_eq_true_iff.mp hc0 with h' | h'
  · rw [h1] at h'; exact absurd h' (by simp)
  · exact h2 (by simpa using h')

theorem num_start_num_char (c : Char) (h : (char_digit c || c == '-') = true) :
    JsonParser.num_char c = true := by
  rcases Bool.or_eq_true_iff.mp h with h' | h'
  · have hp : '0' ≤ c ∧ c ≤ '9' := by simpa [char_digit] using h'
    simp [JsonParser.num_char, hp]
  · simp [JsonParser.num_char, show c = '-' by simpa using h']

theorem num_start_not_ws (l : List Char) (h : head_num_start l = true) :
    head_not_ws l = true := by
  obtain ⟨c, t, rfl, hc⟩ := num_start_head l h
  simp [head_not_ws, num_char_not_ws c (num_start_num_char c hc)]

/-- A well-formed document renders to at least one character. -/
theorem render_length_pos (t : Doc) (h : wfDoc t = true) : 0 < (renderDoc t).length := by
  cases t with
  | null => simp [renderDoc]
  | bool b => cases b <;> simp [renderDoc]
  | num tok =>
    simp only [wfDoc, Bool.and_eq_true] at h
    obtain ⟨c, t', rfl, _⟩ := num_start_head tok h.1.1
    simp [renderDoc]
  | str s => simp [renderDoc]
  | arr es => simp [renderDoc]
  | obj ms => simp [renderDoc]

/-! ## Definitional equations for the `Doc` functions, and zero-whitespace
wrappers for the production lemmas -/

theorem renderDoc_null : renderDoc Doc.null = "null".toList := rfl
theorem renderDoc_true : renderDoc (Doc.bool true) = "true".toList := rfl
theorem renderDoc_false : renderDoc (Doc.bool false) = "false".toList := rfl
theorem renderDoc_num (tok : List Char) : renderDoc (Doc.num tok) = tok := rfl
theorem renderDoc_str (s : List Char) :
    renderDoc (Doc.str s) = '"' :: (s ++ ['"']) := rfl
theorem renderDoc_arr (es : DocElems) :
    renderDoc (Doc.arr es) = '[' :: renderElems es := rfl
theorem renderDoc_obj (ms : DocMembers) :
    renderDoc (Doc.obj ms) = '{' :: renderMembers ms := rfl

theorem renderElems_last (ws0 : List Char) (t : Doc) (ws1 : List Char) :
    renderElems (DocElems.last ws0 t ws1)
      = ws0 ++ (renderDoc t ++ (ws1 ++ [']'])) := rfl
theorem renderElems_cons (ws0 : List Char) (t : Doc) (ws1 : List Char) (rest : DocElems) :
    renderElems (DocElems.cons ws0 t ws1 rest)
      = ws0 ++ (renderDoc t ++ (ws1 ++ (',' :: renderElems rest))) := rfl

theorem renderMembers_last (wsK key wsC ws0 : List Char) (t : Doc) (ws1 : List Char) :
    renderMembers (DocMembers.last wsK key wsC ws0 t ws1)
      = wsK ++ ('"' :: (key ++ ('"' :: (wsC ++ (':' :: (ws0 ++ (renderDoc t
          ++ (ws1 ++ ['}'])))))))) := rfl
theorem renderMembers_cons (wsK key wsC ws0 : List Char) (t : Doc) (ws1 : List Char)
    (rest : DocMembers) :
    renderMembers (DocMembers.cons wsK key wsC ws0 t ws1 rest)
      = wsK ++ ('"' :: (key ++ ('"' :: (wsC ++ (':' :: (ws0 ++ (renderDoc t
          ++ (ws1 ++ (',' :: renderMembers rest))))))))) := rfl

theorem valDoc_null : valDoc Doc.null = JsonValue.Null := rfl
theorem valDoc_bool (b : Bool) : valDoc (Doc.bool b) = JsonValue.Bool b := rfl
theorem valDoc_num (tok : List Char) :
    valDoc (Doc.num tok) = JsonValue.Num ((rust_parse_f64 tok).getD ⟨0, 0⟩) := rfl
theorem valDoc_str (s : List Char) : valDoc (Doc.str s) = JsonValue.Str s := rfl
theorem valDoc_arr (es : DocElems) :
    valDoc (Doc.arr es) = JsonValue.Array (valElems es) := rfl
theorem valDoc_obj (ms : DocMembers) :
    valDoc (Doc.obj ms) = JsonValue.Object (valMembers [] ms) := rfl

theorem valElems_last (ws0 : List Char) (t : Doc) (ws1 : List Char) :
    valElems (DocElems.last ws0 t ws1) = [valDoc t] := rfl
theorem valElems_cons (ws0 : List Char) (t : Doc) (ws1 : List Char) (rest : DocElems) :
    valElems (DocElems.cons ws0 t ws1 rest) = valDoc t :: valElems rest := rfl

theorem valMembers_last (acc : List (List Char × JsonValue)) (wsK key wsC ws0 : List Char)
    (t : Doc) (ws1 : List Char) :
    valMembers acc (DocMembers.last wsK key wsC ws0 t ws1)
      = map_insert acc key (valDoc t) := rfl
theorem valMembers_cons (acc : List (List Char × JsonValue)) (wsK key wsC ws0 : List Char)
    (t : Doc) (ws1 : List Char) (rest : DocMembers) :
    valMembers acc (DocMembers.cons wsK key wsC ws0 t ws1 rest)
      = valMembers (map_insert acc key (valDoc t)) rest := rfl

theorem wfDoc_num (tok : List Char) :
    wfDoc (Doc.num tok)
      = (head_num_start tok && tok.all JsonParser.num_char
          && (rust_parse_f64 tok).isSome) := rfl
theorem wfDoc_str (s : List Char) :
    wfDoc (Doc.str s) = s.all (fun c => !(c == '"')) := rfl
theorem wfDoc_arr (es : DocElems) : wfDoc (Doc.arr es) = wfElems es := rfl
theorem wfDoc_obj (ms : DocMembers) : wfDoc (Doc.obj ms) = wfMembers ms := rfl

theorem wfElems_last (ws0 : List Char) (t : Doc) (ws1 : List Char) :
    wfElems (DocElems.last ws0 t ws1)
      = (ws_only ws0 && wfDoc t && ws_only ws1 && (!isObjDoc t || ws1.isEmpty)) := rfl
theorem wfElems_cons (ws0 : List Char) (t : Doc) (ws1 : List Char) (rest : DocElems) :
    wfElems (DocElems.cons ws0 t ws1 rest)
      = (ws_only ws0 && wfDoc t && ws_only ws1 && (!isObjDoc t || ws1.isEmpty)
          && wfElems rest) := rfl

theorem wfMembers_last (wsK key wsC ws0 : List Char) (t : Doc) (ws1 : List Char) :
    wfMembers (DocMembers.last wsK key wsC ws0 t ws1)
      = (ws_only wsK && key.all (fun c => !(c == '"')) && ws_only wsC && ws_only ws0
          && wfDoc t && ws_only ws1) := rfl
theorem wfMembers_cons (wsK key wsC ws0 : List Char) (t : Doc) (ws1 : List Char)
    (rest : DocMembers) :
    wfMembers (DocMembers.cons wsK key wsC ws0 t ws1 rest)
      = (ws_only wsK && key.all (fun c => !(c == '"')) && ws_only wsC && ws_only ws0
          && wfDoc t && ws_only ws1 && wfMembers rest) := rfl

theorem obj_ws_empty (t : Doc) (ws1 : List Char)
    (h : (!isObjDoc t || ws1.isEmpty) = true) (ho : isObjDoc t = true) : ws1 = [] := by
  rw [ho] at h
  simpa using h

theorem parse_string_fail0 (k : List Char) (q : Nat × Nat) (hk : head_not_ws k = true)
    (hq : k.head? ≠ some '"') :
    ∃ q', JsonParser.parse_string (at_pos q k)
      = (Except.error ⟨ErrorCode.UnclosedStringLiteral, q'.1, q'.2⟩, at_pos q' k) := by
  have h := parse_string_fail [] k q rfl hk hq
  simpa using h

theorem parse_string_ok0 (content rest : List Char) (q : Nat × Nat)
    (hc : content.all (fun c => !(c == '"')) = true) :
    ∃ q', JsonParser.parse_string (at_pos q ('"' :: (content ++ '"' :: rest)))
      = (Except.ok (JsonValue.Str content), at_pos q' rest) := by
  have h := parse_string_ok [] content rest q rfl hc
  simpa using h

theorem parse_num_fail0 (k : List Char) (q : Nat × Nat) (hk : head_not_ws k = true)
    (hs : head_num_start k = false) :
    ∃ q', JsonParser.parse_num (at_pos q k)
      = (Except.error ⟨ErrorCode.NumberParsing, q'.1, q'.2⟩, at_pos q' k) := by
  have h := parse_num_fail [] k q rfl hk hs
  simpa using h

theorem parse_null_fail0 (k : List Char) (q : Nat × Nat) (hk : head_not_ws k = true)
    (hn : k.head? ≠ some 'n') :
    ∃ q', JsonParser.parse_null (at_pos q k)
      = (Except.error ⟨ErrorCode.ExpectedNull, q'.1, q'.2⟩, at_pos q' k) := by
  have h := parse_null_fail [] k q rfl hk hn
  simpa using h

/-- `parse_object` on a whitespace run followed by a separator context: some
error (`EndOfFile` when the whole remainder is empty, `UnclosedObject`
otherwise), with exactly the whitespace consumed. -/
theorem parse_object_ws_sep (n : Nat) (ws1 k : List Char) (q : Nat × Nat)
    (hw : ws_only ws1 = true) (hs : sep_ok k = true) :
    ∃ e q', JsonParser.parse_object (n + 1) (at_pos q (ws1 ++ k))
      = some (Except.error e, at_pos q' k) := by
  by_cases hne : ws1 ++ k = []
  · obtain ⟨h1, h2⟩ := List.append_eq_nil.mp hne
    subst h1
    subst h2
    exact ⟨_, q, by simpa using parse_object_fail_eof n q⟩
  · obtain ⟨q', h⟩ := parse_object_fail n ws1 k q hw (sep_ok_not_ws k hs)
      (sep_ok_head_ne k hs '{' (by decide) (by decide) (by decide)) hne
    exact ⟨_, q', h⟩

theorem head_ne_of_eq {l : List Char} {c0 : Char} (h : l.head? = some c0) (c : Char)
    (hne : c0 ≠ c) : l.head? ≠ some c := by
  rw [h]
  simpa using hne

theorem head_num_start_append (tok X : List Char) (h : head_num_start tok = true) :
    head_num_start (tok ++ X) = true := by
  obtain ⟨c, t', rfl, hc⟩ := num_start_head tok h
  simpa [head_num_start] using hc

/-! ## The central lemma: parsing a rendered decorated document

`pv_render`: running `parse_value` on `ws0 ++ renderDoc t ++ ws1 ++ k`, where
`k` is empty or starts with a separator/closing bracket, succeeds with
`valDoc t` and stops exactly at `k` - except that after an object value
(the one production with no later whitespace-skipping failures) the cursor
stops before `ws1`.  `al_render` / `ol_render` are the corresponding loop
invariants of `parse_array` / `parse_object`. -/

mutual

theorem pv_render : ∀ t : Doc, ∀ ws0 ws1 k : List Char, ∀ q : Nat × Nat, ∀ n : Nat,
    wfDoc t = true → ws_only ws0 = true → ws_only ws1 = true → sep_ok k = true →
    3 * (ws0 ++ (renderDoc t ++ (ws1 ++ k))).length + 3 ≤ n →
    ∃ q', JsonParser.parse_value n (at_pos q (ws0 ++ (renderDoc t ++ (ws1 ++ k))))
      = some (Except.ok (valDoc t), at_pos q' (if isObjDoc t then ws1 ++ k else k))
  | Doc.null, ws0, ws1, k, q, n, hwf, hw0, hw1, hsep, hfuel => by
    obtain ⟨m, rfl⟩ : ∃ m, n = m + 1 := ⟨n - 1, by omega⟩
    simp only [renderDoc_null] at hfuel ⊢
    have hknw : head_not_ws k = true := sep_ok_not_ws k hsep
    obtain ⟨q1, h1⟩ := parse_bool_fail ws0 ("null".toList ++ (ws1 ++ k)) q hw0
      (by rfl) (head_ne_of_eq (by rfl) 'f' (by decide)) (head_ne_of_eq (by rfl) 't' (by decide))
    obtain ⟨q2, h2⟩ := parse_string_fail0 ("null".toList ++ (ws1 ++ k)) q1
      (by rfl) (head_ne_of_eq (by rfl) '"' (by decide))
    obtain ⟨q3, h3⟩ := parse_num_fail0 ("null".toList ++ (ws1 ++ k)) q2
      (by rfl) (by rfl)
    have h4' := parse_null_ok [] ws1 k q3 rfl hw1 hknw
    simp only [List.nil_append] at h4'
    obtain ⟨q4, h4⟩ := h4'
    obtain ⟨m', rfl⟩ : ∃ m', m = m' + 1 := ⟨m - 1, by omega⟩
    have h5 := parse_array_fail m' k q4
      (sep_ok_head_ne k hsep '[' (by decide) (by decide) (by decide))
    have h6' := parse_object_ws_sep m' [] k q4 rfl hsep
    simp only [List.nil_append] at h6'
    obtain ⟨e6, q6, h6⟩ := h6'
    refine ⟨q6, ?_⟩
    rw [parse_value_step]
    simp only [h1, h2, h3, h4, h5, h6]
    rfl
  | Doc.bool b, ws0, ws1, k, q, n, hwf, hw0, hw1, hsep, hfuel => by
    obtain ⟨m, rfl⟩ : ∃ m, n = m + 1 := ⟨n - 1, by omega⟩
    have hknw : head_not_ws k = true := sep_ok_not_ws k hsep
    cases b with
    | false =>
      simp only [renderDoc_false] at hfuel ⊢
      obtain ⟨q1, h1⟩ := parse_bool_false ws0 ws1 k q hw0 hw1 hknw
      obtain ⟨q2, h2⟩ := parse_string_fail0 k q1 hknw
        (sep_ok_head_ne k hsep '"' (by decide) (by decide) (by decide))
      obtain ⟨q3, h3⟩ := parse_num_fail0 k q2 hknw (sep_ok_num_start k hsep)
      obtain ⟨q4, h4⟩ := parse_null_fail0 k q3 hknw
        (sep_ok_head_ne k hsep 'n' (by decide) (by decide) (by decide))
      obtain ⟨m', rfl⟩ : ∃ m', m = m' + 1 := ⟨m - 1, by omega⟩
      have h5 := parse_array_fail m' k q4
        (sep_ok_head_ne k hsep '[' (by decide) (by decide) (by decide))
      have h6' := parse_object_ws_sep m' [] k q4 rfl hsep
      simp only [List.nil_append] at h6'
      obtain ⟨e6, q6, h6⟩ := h6'
      refine ⟨q6, ?_⟩
      rw [parse_value_step]
      simp only [h1, h2, h3, h4, h5, h6]
      rfl
    | true =>
      simp only [renderDoc_true] at hfuel ⊢
      obtain ⟨q1, h1⟩ := parse_bool_true ws0 ws1 k q hw0 hw1 hknw
      obtain ⟨q2, h2⟩ := parse_string_fail0 k q1 hknw
        (sep_ok_head_ne k hsep '"' (by decide) (by decide) (by decide))
      obtain ⟨q3, h3⟩ := parse_num_fail0 k q2 hknw (sep_ok_num_start k hsep)
      obtain ⟨q4, h4⟩ := parse_null_fail0 k q3 hknw
        (sep_ok_head_ne k hsep 'n' (by decide) (by decide) (by decide))
      obtain ⟨m', rfl⟩ : ∃ m', m = m' + 1 := ⟨m - 1, by omega⟩
      have h5 := parse_array_fail m' k q4
        (sep_ok_head_ne k hsep '[' (by decide) (by decide) (by decide))
      have h6' := parse_object_ws_sep m' [] k q4 rfl hsep
      simp only [List.nil_append] at h6'
      obtain ⟨e6, q6, h6⟩ := h6'
      refine ⟨q6, ?_⟩
      rw [parse_value_step]
      simp only [h1, h2, h3, h4, h5, h6]
      rfl
  | Doc.num tok, ws0, ws1, k, q, n, hwf, hw0, hw1, hsep, hfuel => by
    simp only [wfDoc_num, Bool.and_eq_true] at hwf
    obtain ⟨⟨hstart, hall⟩, hsome⟩ := hwf
    obtain ⟨x, hx⟩ := Option.isSome_iff_exists.mp hsome
    obtain ⟨m, rfl⟩ : ∃ m, n = m + 1 := ⟨n - 1, by omega⟩
    simp only [renderDoc_num] at hfuel ⊢
    have hknw : head_not_ws k = true := sep_ok_not_ws k hsep
    have htokne : tok ≠ [] := by
      obtain ⟨c, t', rfl, _⟩ := num_start_head tok hstart
      simp
    have happ : head_num_start (tok ++ (ws1 ++ k)) = true :=
      head_num_start_append tok (ws1 ++ k) hstart
    obtain ⟨q1, h1⟩ := parse_bool_fail ws0 (tok ++ (ws1 ++ k)) q hw0
      (num_start_not_ws _ happ)
      (num_start_ne _ happ 'f' (by decide) (by decide))
      (num_start_ne _ happ 't' (by decide) (by decide))
    obtain ⟨q2, h2⟩ := parse_string_fail0 (tok ++ (ws1 ++ k)) q1
      (num_start_not_ws _ happ)
      (num_start_ne _ happ '"' (by decide) (by decide))
    have h3' := parse_num_ok [] tok (ws1 ++ k) q2 x rfl htokne hstart hall hx
      (ws_sep_not_num ws1 k hw1 hsep)
    simp only [List.nil_append] at h3'
    obtain ⟨q3, h3⟩ := h3'
    obtain ⟨q4, h4⟩ := parse_null_fail ws1 k q3 hw1 hknw
      (sep_ok_head_ne k hsep 'n' (by decide) (by decide) (by decide))
    obtain ⟨m', rfl⟩ : ∃ m', m = m' + 1 := ⟨m - 1, by omega⟩
    have h5 := parse_array_fail m' k q4
      (sep_ok_head_ne k hsep '[' (by decide) (by decide) (by decide))
    have h6' := parse_object_ws_sep m' [] k q4 rfl hsep
    simp only [List.nil_append] at h6'
    obtain ⟨e6, q6, h6⟩ := h6'
    refine ⟨q6, ?_⟩
    rw [parse_value_step]
    simp only [h1, h2, h3, h4, h5, h6]
    simp only [valDoc_num, hx, Option.getD_some]
    rfl
  | Doc.str s, ws0, ws1, k, q, n, hwf, hw0, hw1, hsep, hfuel => by
    simp only [wfDoc_str] at hwf
    obtain ⟨m, rfl⟩ : ∃ m, n = m + 1 := ⟨n - 1, by omega⟩
    simp only [renderDoc_str] at hfuel ⊢
    have hsh : ('"' :: (s ++ ['"'])) ++ (ws1 ++ k) = '"' :: (s ++ ('"' :: (ws1 ++ k))) := by
      simp
    rw [hsh] at hfuel ⊢
    have hknw : head_not_ws k = true := sep_ok_not_ws k hsep
    obtain ⟨q1, h1⟩ := parse_bool_fail ws0 ('"' :: (s ++ ('"' :: (ws1 ++ k)))) q hw0
      (by rfl) (head_ne_of_eq (by rfl) 'f' (by decide)) (head_ne_of_eq (by rfl) 't' (by decide))
    obtain ⟨q2, h2⟩ := parse_string_ok0 s (ws1 ++ k) q1 hwf
    obtain ⟨q3, h3⟩ := parse_num_fail ws1 k q2 hw1 hknw (sep_ok_num_start k hsep)
    obtain ⟨q4, h4⟩ := parse_null_fail0 k q3 hknw
      (sep_ok_head_ne k hsep 'n' (by decide) (by decide) (by decide))
    obtain ⟨m', rfl⟩ : ∃ m', m = m' + 1 := ⟨m - 1, by omega⟩
    have h5 := parse_array_fail m' k q4
      (sep_ok_head_ne k hsep '[' (by decide) (by decide) (by decide))
    have h6' := parse_object_ws_sep m' [] k q4 rfl hsep
    simp only [List.nil_append] at h6'
    obtain ⟨e6, q6, h6⟩ := h6'
    refine ⟨q6, ?_⟩
    rw [parse_value_step]
    simp only [h1, h2, h3, h4, h5, h6]
    rfl
  | Doc.arr es, ws0, ws1, k, q, n, hwf, hw0, hw1, hsep, hfuel => by
    simp only [wfDoc_arr] at hwf
    obtain ⟨m, rfl⟩ : ∃ m, n = m + 1 := ⟨n - 1, by omega⟩
    simp only [renderDoc_arr] at hfuel ⊢
    have hsh : ('[' :: renderElems es) ++ (ws1 ++ k)
        = '[' :: (renderElems es ++ (ws1 ++ k)) := by simp
    rw [hsh] at hfuel ⊢
    have hknw : head_not_ws k = true := sep_ok_not_ws k hsep
    obtain ⟨q1, h1⟩ := parse_bool_fail ws0 ('[' :: (renderElems es ++ (ws1 ++ k))) q hw0
      (by rfl) (head_ne_of_eq (by rfl) 'f' (by decide)) (head_ne_of_eq (by rfl) 't' (by decide))
    obtain ⟨q2, h2⟩ := parse_string_fail0 ('[' :: (renderElems es ++ (ws1 ++ k))) q1
      (by rfl) (head_ne_of_eq (by rfl) '"' (by decide))
    obtain ⟨q3, h3⟩ := parse_num_fail0 ('[' :: (renderElems es ++ (ws1 ++ k))) q2
      (by rfl) (by rfl)
    obtain ⟨q4, h4⟩ := parse_null_fail0 ('[' :: (renderElems es ++ (ws1 ++ k))) q3
      (by rfl) (head_ne_of_eq (by rfl) 'n' (by decide))
    obtain ⟨m', rfl⟩ : ∃ m', m = m' + 1 := ⟨m - 1, by omega⟩
    obtain ⟨q5, hal⟩ := al_render es (ws1 ++ k) []
      (step_pos q4 (renderElems es ++ (ws1 ++ k)).head?) m' hwf
      (by simp only [List.length_append, List.length_cons] at hfuel ⊢; omega)
    have h5 : JsonParser.parse_array (m' + 1)
        (at_pos q4 ('[' :: (renderElems es ++ (ws1 ++ k))))
        = some (Except.ok (JsonValue.Array (valElems es)), at_pos q5 (ws1 ++ k)) := by
      rw [parse_array_step]
      have hch : (at_pos q4 ('[' :: (renderElems es ++ (ws1 ++ k)))).ch_is '[' = true := by
        rw [ch_is_at]; rfl
      simp only [hch, if_true, consume_char_at, List.tail_cons, hal, List.nil_append]
    have h6' := parse_object_ws_sep m' ws1 k q5 hw1 hsep
    obtain ⟨e6, q6, h6⟩ := h6'
    refine ⟨q6, ?_⟩
    rw [parse_value_step]
    simp only [h1, h2, h3, h4, h5, h6]
    rfl
  | Doc.obj ms, ws0, ws1, k, q, n, hwf, hw0, hw1, hsep, hfuel => by
    simp only [wfDoc_obj] at hwf
    obtain ⟨m, rfl⟩ : ∃ m, n = m + 1 := ⟨n - 1, by omega⟩
    simp only [renderDoc_obj] at hfuel ⊢
    have hsh : ('{' :: renderMembers ms) ++ (ws1 ++ k)
        = '{' :: (renderMembers ms ++ (ws1 ++ k)) := by simp
    rw [hsh] at hfuel ⊢
    obtain ⟨q1, h1⟩ := parse_bool_fail ws0 ('{' :: (renderMembers ms ++ (ws1 ++ k))) q hw0
      (by rfl) (head_ne_of_eq (by rfl) 'f' (by decide)) (head_ne_of_eq (by rfl) 't' (by decide))
    obtain ⟨q2, h2⟩ := parse_string_fail0 ('{' :: (renderMembers ms ++ (ws1 ++ k))) q1
      (by rfl) (head_ne_of_eq (by rfl) '"' (by decide))
    obtain ⟨q3, h3⟩ := parse_num_fail0 ('{' :: (renderMembers ms ++ (ws1 ++ k))) q2
      (by rfl) (by rfl)
    obtain ⟨q4, h4⟩ := parse_null_fail0 ('{' :: (renderMembers ms ++ (ws1 ++ k))) q3
      (by rfl) (head_ne_of_eq (by rfl) 'n' (by decide))
    obtain ⟨m', rfl⟩ : ∃ m', m = m' + 1 := ⟨m - 1, by omega⟩
    have h5 := parse_array_fail m' ('{' :: (renderMembers ms ++ (ws1 ++ k))) q4
      (head_ne_of_eq (by rfl) '[' (by decide))
    obtain ⟨q6, hol⟩ := ol_render ms (ws1 ++ k) []
      (step_pos q4 (renderMembers ms ++ (ws1 ++ k)).head?) m' hwf
      (by simp only [List.length_append, List.length_cons] at hfuel ⊢; omega)
    have h6 : JsonParser.parse_object (m' + 1)
        (at_pos q4 ('{' :: (renderMembers ms ++ (ws1 ++ k))))
        = some (Except.ok (JsonValue.Object (valMembers [] ms)), at_pos q6 (ws1 ++ k)) := by
      rw [parse_object_step]
      have hemp : (at_pos q4 ('{' :: (renderMembers ms ++ (ws1 ++ k)))).eof = false := by
        rw [eof_at]; rfl
      have hnoop := consume_ws_noop q4 ('{' :: (renderMembers ms ++ (ws1 ++ k))) (by rfl)
      have hch : (at_pos q4 ('{' :: (renderMembers ms ++ (ws1 ++ k)))).ch_is '{' = true := by
        rw [ch_is_at]; rfl
      simp only [hemp, Bool.false_eq_true, if_false, hnoop, hch, if_true,
        consume_char_at, List.tail_cons, hol]
    refine ⟨q6, ?_⟩
    rw [parse_value_step]
    simp only [h1, h2, h3, h4, h5, h6]
    rfl

theorem al_render : ∀ es : DocElems, ∀ k2 : List Char, ∀ acc : List JsonValue,
    ∀ q : Nat × Nat, ∀ n : Nat,
    wfElems es = true → 3 * (renderElems es ++ k2).length + 4 ≤ n →
    ∃ q', JsonParser.parse_array_loop n (at_pos q (renderElems es ++ k2)) acc
      = some (Except.ok (JsonValue.Array (acc ++ valElems es)), at_pos q' k2)
  | DocElems.last ws0 t ws1, k2, acc, q, n, hwf, hfuel => by
    simp only [wfElems_last, Bool.and_eq_true] at hwf
    obtain ⟨⟨⟨hw0, hwt⟩, hw1⟩, hobj⟩ := hwf
    obtain ⟨m, rfl⟩ : ∃ m, n = m + 1 := ⟨n - 1, by omega⟩
    simp only [renderElems_last] at hfuel ⊢
    have hsh : (ws0 ++ (renderDoc t ++ (ws1 ++ [']']))) ++ k2
        = ws0 ++ (renderDoc t ++ (ws1 ++ (']' :: k2))) := by simp
    rw [hsh] at hfuel ⊢
    obtain ⟨q1, hpv⟩ := pv_render t ws0 ws1 (']' :: k2) q m hwt hw0 hw1 (by rfl)
      (by omega)
    have hcol : (if isObjDoc t then ws1 ++ (']' :: k2) else (']' :: k2)) = ']' :: k2 := by
      cases hio : isObjDoc t with
      | true => rw [obj_ws_empty t ws1 hobj hio]; simp
      | false => simp
    rw [hcol] at hpv
    refine ⟨step_pos q1 k2.head?, ?_⟩
    rw [parse_array_loop_step]
    have hcomma : (at_pos q1 (']' :: k2)).ch_is ',' = false := by rw [ch_is_at]; rfl
    have hbr : (at_pos q1 (']' :: k2)).ch_is ']' = true := by rw [ch_is_at]; rfl
    simp only [hpv, hcomma, hbr, Bool.false_eq_true, if_false, if_true,
      consume_char_at, List.tail_cons, valElems_last]
  | DocElems.cons ws0 t ws1 rest, k2, acc, q, n, hwf, hfuel => by
    simp only [wfElems_cons, Bool.and_eq_true] at hwf
    obtain ⟨⟨⟨⟨hw0, hwt⟩, hw1⟩, hobj⟩, hrest⟩ := hwf
    obtain ⟨m, rfl⟩ : ∃ m, n = m + 1 := ⟨n - 1, by omega⟩
    simp only [renderElems_cons] at hfuel ⊢
    have hsh : (ws0 ++ (renderDoc t ++ (ws1 ++ (',' :: renderElems rest)))) ++ k2
        = ws0 ++ (renderDoc t ++ (ws1 ++ (',' :: (renderElems rest ++ k2)))) := by simp
    rw [hsh] at hfuel ⊢
    obtain ⟨q1, hpv⟩ := pv_render t ws0 ws1 (',' :: (renderElems rest ++ k2)) q m hwt hw0
      hw1 (by rfl) (by omega)
    have hcol : (if isObjDoc t then ws1 ++ (',' :: (renderElems rest ++ k2))
        else (',' :: (renderElems rest ++ k2))) = ',' :: (renderElems rest ++ k2) := by
      cases hio : isObjDoc t with
      | true => rw [obj_ws_empty t ws1 hobj hio]; simp
      | false => simp
    rw [hcol] at hpv
    have hrl := render_length_pos t hwt
    obtain ⟨q2, hal⟩ := al_render rest k2 (acc ++ [valDoc t])
      (step_pos q1 (renderElems rest ++ k2).head?) m hrest
      (by simp only [List.length_append, List.length_cons] at hfuel ⊢; omega)
    refine ⟨q2, ?_⟩
    rw [parse_array_loop_step]
    have hcomma : (at_pos q1 (',' :: (renderElems rest ++ k2))).ch_is ',' = true := by
      rw [ch_is_at]; rfl
    simp only [hpv, hcomma, if_true, consume_char_at, List.tail_cons, hal,
      valElems_cons, List.append_assoc, List.singleton_append]

theorem ol_render : ∀ ms : DocMembers, ∀ k2 : List Char,
    ∀ acc : List (List Char × JsonValue), ∀ q : Nat × Nat, ∀ n : Nat,
    wfMembers ms = true → 3 * (renderMembers ms ++ k2).length + 4 ≤ n →
    ∃ q', JsonParser.parse_object_loop n (at_pos q (renderMembers ms ++ k2)) acc
      = some (Except.ok (JsonValue.Object (valMembers acc ms)), at_pos q' k2)
  | DocMembers.last wsK key wsC ws0 t ws1, k2, acc, q, n, hwf, hfuel => by
    simp only [wfMembers_last, Bool.and_eq_true] at hwf
    obtain ⟨⟨⟨⟨⟨hwK, hkey⟩, hwC⟩, hw0⟩, hwt⟩, hw1⟩ := hwf
    obtain ⟨m, rfl⟩ : ∃ m, n = m + 1 := ⟨n - 1, by omega⟩
    simp only [renderMembers_last] at hfuel ⊢
    have hsh : (wsK ++ ('"' :: (key ++ ('"' :: (wsC ++ (':' :: (ws0 ++ (renderDoc t
          ++ (ws1 ++ ['}'])))))))) ) ++ k2
        = wsK ++ ('"' :: (key ++ ('"' :: (wsC ++ (':' :: (ws0 ++ (renderDoc t
          ++ (ws1 ++ ('}' :: k2))))))))) := by simp
    rw [hsh] at hfuel ⊢
    obtain ⟨q1, h1⟩ := consume_ws_at wsK q
      ('"' :: (key ++ ('"' :: (wsC ++ (':' :: (ws0 ++ (renderDoc t
        ++ (ws1 ++ ('}' :: k2))))))))) hwK (by rfl)
    obtain ⟨q2, h2⟩ := parse_string_ok0 key
      (wsC ++ (':' :: (ws0 ++ (renderDoc t ++ (ws1 ++ ('}' :: k2)))))) q1 hkey
    obtain ⟨q3, h3⟩ := consume_ws_at wsC q2
      (':' :: (ws0 ++ (renderDoc t ++ (ws1 ++ ('}' :: k2))))) hwC (by rfl)
    have hcolon : (at_pos q3
        (':' :: (ws0 ++ (renderDoc t ++ (ws1 ++ ('}' :: k2)))))).ch_is ':' = true := by
      rw [ch_is_at]; rfl
    have h4 := consume_ws_noop q3
      (':' :: (ws0 ++ (renderDoc t ++ (ws1 ++ ('}' :: k2))))) (by rfl)
    obtain ⟨q5, hpv⟩ := pv_render t ws0 ws1 ('}' :: k2)
      (step_pos q3 (ws0 ++ (renderDoc t ++ (ws1 ++ ('}' :: k2)))).head?) m hwt hw0 hw1
      (by rfl)
      (by simp only [List.length_append, List.length_cons] at hfuel ⊢; omega)
    obtain ⟨q7, h7⟩ : ∃ q7, (at_pos q5 (if isObjDoc t then ws1 ++ ('}' :: k2)
        else ('}' :: k2))).consume_whitespace = at_pos q7 ('}' :: k2) := by
      cases hio : isObjDoc t with
      | true =>
        simp only [if_true]
        exact consume_ws_at ws1 q5 ('}' :: k2) hw1 (by rfl)
      | false =>
        simp only [Bool.false_eq_true, if_false]
        exact ⟨q5, consume_ws_noop q5 ('}' :: k2) (by rfl)⟩
    refine ⟨step_pos q7 k2.head?, ?_⟩
    rw [parse_object_loop_step]
    have hcomma : (at_pos q7 ('}' :: k2)).ch_is ',' = false := by rw [ch_is_at]; rfl
    have hbr : (at_pos q7 ('}' :: k2)).ch_is '}' = true := by rw [ch_is_at]; rfl
    simp only [h1, h2, h3, hcolon, Bool.not_true, Bool.false_eq_true, if_false, h4,
      consume_char_at, List.tail_cons, hpv, h7, hcomma, hbr, if_true,
      valMembers_last]
  | DocMembers.cons wsK key wsC ws0 t ws1 rest, k2, acc, q, n, hwf, hfuel => by
    simp only [wfMembers_cons, Bool.and_eq_true] at hwf
    obtain ⟨⟨⟨⟨⟨⟨hwK, hkey⟩, hwC⟩, hw0⟩, hwt⟩, hw1⟩, hrest⟩ := hwf
    obtain ⟨m, rfl⟩ : ∃ m, n = m + 1 := ⟨n - 1, by omega⟩
    simp only [renderMembers_cons] at hfuel ⊢
    have hsh : (wsK ++ ('"' :: (key ++ ('"' :: (wsC ++ (':' :: (ws0 ++ (renderDoc t
          ++ (ws1 ++ (',' :: renderMembers rest)))))))))) ++ k2
        = wsK ++ ('"' :: (key ++ ('"' :: (wsC ++ (':' :: (ws0 ++ (renderDoc t
          ++ (ws1 ++ (',' :: (renderMembers rest ++ k2)))))))))) := by simp
    rw [hsh] at hfuel ⊢
    obtain ⟨q1, h1⟩ := consume_ws_at wsK q
      ('"' :: (key ++ ('"' :: (wsC ++ (':' :: (ws0 ++ (renderDoc t
        ++ (ws1 ++ (',' :: (renderMembers rest ++ k2)))))))))) hwK (by rfl)
    obtain ⟨q2, h2⟩ := parse_string_ok0 key
      (wsC ++ (':' :: (ws0 ++ (renderDoc t ++ (ws1 ++ (',' :: (renderMembers rest
        ++ k2))))))) q1 hkey
    obtain ⟨q3, h3⟩ := consume_ws_at wsC q2
      (':' :: (ws0 ++ (renderDoc t ++ (ws1 ++ (',' :: (renderMembers rest ++ k2))))))
      hwC (by rfl)
    have hcolon : (at_pos q3 (':' :: (ws0 ++ (renderDoc t ++ (ws1
        ++ (',' :: (renderMembers rest ++ k2))))))).ch_is ':' = true := by
      rw [ch_is_at]; rfl
    have h4 := consume_ws_noop q3
      (':' :: (ws0 ++ (renderDoc t ++ (ws1 ++ (',' :: (renderMembers rest ++ k2))))))
      (by rfl)
    obtain ⟨q5, hpv⟩ := pv_render t ws0 ws1 (',' :: (renderMembers rest ++ k2))
      (step_pos q3 (ws0 ++ (renderDoc t ++ (ws1 ++ (',' :: (renderMembers rest
        ++ k2))))).head?) m hwt hw0 hw1 (by rfl)
      (by simp only [List.length_append, List.length_cons] at hfuel ⊢; omega)
    obtain ⟨q7, h7⟩ : ∃ q7, (at_pos q5 (if isObjDoc t
        then ws1 ++ (',' :: (renderMembers rest ++ k2))
        else (',' :: (renderMembers rest ++ k2)))).consume_whitespace
        = at_pos q7 (',' :: (renderMembers rest ++ k2)) := by
      cases hio : isObjDoc t with
      | true =>
        simp only [if_true]
        exact consume_ws_at ws1 q5 (',' :: (renderMembers rest ++ k2)) hw1 (by rfl)
      | false =>
        simp only [Bool.false_eq_true, if_false]
        exact ⟨q5, consume_ws_noop q5 (',' :: (renderMembers rest ++ k2)) (by rfl)⟩
    have hrl := render_length_pos t hwt
    obtain ⟨q8, hol⟩ := ol_render rest k2 (map_insert acc key (valDoc t))
      (step_pos q7 (renderMembers rest ++ k2).head?) m hrest
      (by simp only [List.length_append, List.length_cons] at hfuel ⊢; omega)
    refine ⟨q8, ?_⟩
    rw [parse_object_loop_step]
    have hcomma : (at_pos q7 (',' :: (renderMembers rest ++ k2))).ch_is ',' = true := by
      rw [ch_is_at]; rfl
    simp only [h1, h2, h3, hcolon, Bool.not_true, Bool.false_eq_true, if_false, h4,
      consume_char_at, List.tail_cons, hpv, h7, hcomma, if_true, hol,
      valMembers_cons]

end

/-! ## Consumption bounds and totality

`rem` never increases, successful productions consume at least one
character, and with fuel `3 * rem + 3` the mutual parser never runs out
(`parse` always returns `some`). -/

theorem cc_rem_le (p : JsonParser) : (p.consume_char).2.rem ≤ p.rem := by
  rw [rem_consume_char]
  unfold JsonParser.rem
  cases h : p.ch.isSome <;> simp

theorem cc_rem_lt (p : JsonParser) (h : p.ch.isSome = true) :
    (p.consume_char).2.rem < p.rem := by
  rw [rem_consume_char]
  unfold JsonParser.rem
  rw [h]
  simp

theorem cwf_rem_le : ∀ n : Nat, ∀ p : JsonParser,
    (JsonParser.consume_whitespace_fuel n p).rem ≤ p.rem
  | 0, _ => le_refl _
  | n + 1, p => by
    show (if p.ch_is_whitespace then JsonParser.consume_whitespace_fuel n (p.consume_char).2
        else p).rem ≤ p.rem
    by_cases h : p.ch_is_whitespace = true
    · rw [if_pos h]
      exact le_trans (cwf_rem_le n _) (cc_rem_le p)
    · rw [if_neg h]

theorem cw_rem_le (p : JsonParser) : (p.consume_whitespace).rem ≤ p.rem :=
  cwf_rem_le _ p

theorem cw_noop_of (p : JsonParser) (h : p.ch_is_whitespace = false) :
    p.consume_whitespace = p := by
  rw [consume_whitespace_eq, h]
  simp

theorem ch_is_isSome (p : JsonParser) (c : Char) (h : p.ch_is c = true) :
    p.ch.isSome = true := by
  cases hc : p.ch with
  | some d => rfl
  | none => simp [JsonParser.ch_is, hc] at h

theorem ch_is_eq (p : JsonParser) (c : Char) (h : p.ch_is c = true) : p.ch = some c := by
  simpa [JsonParser.ch_is] using h

theorem ch_is_not_ws (p : JsonParser) (c : Char) (h : p.ch_is c = true)
    (hc : is_ws_char c = false) : p.ch_is_whitespace = false := by
  have hch := ch_is_eq p c h
  have h1 : c ≠ ' ' := by intro he; subst he; simp [is_ws_char] at hc
  have h2 : c ≠ '\n' := by intro he; subst he; simp [is_ws_char] at hc
  have h3 : c ≠ '\t' := by intro he; subst he; simp [is_ws_char] at hc
  have h4 : c ≠ '\r' := by intro he; subst he; simp [is_ws_char] at hc
  simp [JsonParser.ch_is_whitespace, JsonParser.ch_is, hch, h1, h2, h3, h4]

theorem ch_is_digit_isSome (p : JsonParser) (h : p.ch_is_digit = true) :
    p.ch.isSome = true := by
  cases hc : p.ch with
  | some d => rfl
  | none => simp [JsonParser.ch_is_digit, hc] at h

theorem ch_is_digit_not_ws (p : JsonParser) (h : p.ch_is_digit = true) :
    p.ch_is_whitespace = false := by
  cases hc : p.ch with
  | none => simp [JsonParser.ch_is_digit, hc] at h
  | some c =>
    simp only [JsonParser.ch_is_digit, hc, Option.getD_some] at h
    have hb : '0' ≤ c ∧ c ≤ '9' := of_decide_eq_true h
    have h1 : c ≠ ' ' := by intro he; subst he; exact absurd hb.1 (by decide)
    have h2 : c ≠ '\n' := by intro he; subst he; exact absurd hb.1 (by decide)
    have h3 : c ≠ '\t' := by intro he; subst he; exact absurd hb.1 (by decide)
    have h4 : c ≠ '\r' := by intro he; subst he; exact absurd hb.1 (by decide)
    simp [JsonParser.ch_is_whitespace, JsonParser.ch_is, hc, h1, h2, h3, h4]

theorem ctg_rem_le : ∀ text : List Char, ∀ p : JsonParser,
    ((JsonParser.consume_text_go text p).2).rem ≤ p.rem
  | [], _ => le_refl _
  | c :: cs, p => by
    show ((if p.ch_is c then _ else _ : Option (List Char) × JsonParser).2).rem ≤ p.rem
    by_cases h : p.ch_is c = true
    · rw [if_pos h]
      exact le_trans (ctg_rem_le cs _) (cc_rem_le p)
    · rw [if_neg h]

theorem ctg_rem_lt (cs : List Char) (c : Char) (p : JsonParser) (h : p.ch_is c = true) :
    ((JsonParser.consume_text_go (c :: cs) p).2).rem < p.rem := by
  show ((if p.ch_is c then _ else _ : Option (List Char) × JsonParser).2).rem < p.rem
  rw [if_pos h]
  exact lt_of_le_of_lt (ctg_rem_le cs _) (cc_rem_lt p (ch_is_isSome p c h))

theorem ctg_some_lt : ∀ text : List Char, ∀ p : JsonParser, ∀ buf : List Char,
    ∀ p2 : JsonParser, text ≠ [] →
    JsonParser.consume_text_go text p = (some buf, p2) → p2.rem < p.rem := by
  intro text p buf p2 hne h
  cases text with
  | nil => exact absurd rfl hne
  | cons c cs =>
    by_cases hc : p.ch_is c = true
    · have := ctg_rem_lt cs c p hc
      rw [h] at this
      exact this
    · have hmiss : JsonParser.consume_text_go (c :: cs) p = (none, p) := by
        show (if p.ch_is c then _ else _ : Option (List Char) × JsonParser) = _
        rw [if_neg hc]
      rw [hmiss] at h
      exact absurd (congrArg Prod.fst h) (by simp)

theorem ct_rem_le (text : List Char) (p : JsonParser) :
    ((JsonParser.consume_text text p).2).rem ≤ p.rem := by
  have hg := ctg_rem_le text p.consume_whitespace
  have hw := cw_rem_le p
  rcases hc : JsonParser.consume_text_go text p.consume_whitespace with ⟨r, p2⟩
  rw [hc] at hg
  cases r with
  | some buf =>
    have he : JsonParser.consume_text text p = (some buf, p2.consume_whitespace) := by
      simp only [JsonParser.consume_text, hc]
    rw [he]
    exact le_trans (cw_rem_le p2) (le_trans hg hw)
  | none =>
    have he : JsonParser.consume_text text p = (none, p2) := by
      simp only [JsonParser.consume_text, hc]
    rw [he]
    exact le_trans hg hw

theorem ct_rem_lt (text : List Char) (c : Char) (p : JsonParser)
    (ht : text.head? = some c) (hch : p.ch_is c = true)
    (hnws : p.ch_is_whitespace = false) :
    ((JsonParser.consume_text text p).2).rem < p.rem := by
  cases text with
  | nil => simp at ht
  | cons c0 cs =>
    have hc0 : c0 = c := by simpa using ht
    have hch0 : p.ch_is c0 = true := by rw [hc0]; exact hch
    have hcw : p.consume_whitespace = p := cw_noop_of p hnws
    have hlt := ctg_rem_lt cs c0 p hch0
    rcases hg : JsonParser.consume_text_go (c0 :: cs) p with ⟨r, p2⟩
    rw [hg] at hlt
    cases r with
    | some buf =>
      have he : JsonParser.consume_text (c0 :: cs) p = (some buf, p2.consume_whitespace) := by
        simp only [JsonParser.consume_text, hcw, hg]
      rw [he]
      exact lt_of_le_of_lt (cw_rem_le p2) hlt
    | none =>
      have he : JsonParser.consume_text (c0 :: cs) p = (none, p2) := by
        simp only [JsonParser.consume_text, hcw, hg]
      rw [he]
      exact hlt

theorem ct_some_lt (text : List Char) (p : JsonParser) (buf : List Char)
    (p' : JsonParser) (htne : text ≠ [])
    (h : JsonParser.consume_text text p = (some buf, p')) : p'.rem < p.rem := by
  have hw := cw_rem_le p
  rcases hg : JsonParser.consume_text_go text p.consume_whitespace with ⟨r, p2⟩
  cases r with
  | none =>
    have he : JsonParser.consume_text text p = (none, p2) := by
      simp only [JsonParser.consume_text, hg]
    rw [he] at h
    exact absurd (congrArg Prod.fst h) (by simp)
  | some buf2 =>
    have he : JsonParser.consume_text text p = (some buf2, p2.consume_whitespace) := by
      simp only [JsonParser.consume_text, hg]
    rw [he] at h
    have hp : p' = p2.consume_whitespace := (congrArg Prod.snd h).symm
    subst hp
    have hlt := ctg_some_lt text p.consume_whitespace buf2 p2 htne hg
    exact lt_of_le_of_lt (cw_rem_le p2) (lt_of_lt_of_le hlt hw)

theorem cnf_rem_le : ∀ n : Nat, ∀ p : JsonParser,
    ((JsonParser.consume_num_fuel n p).2).rem ≤ p.rem
  | 0, _ => le_refl _
  | n + 1, p => by
    show ((if _ then _ else _ : List Char × JsonParser).2).rem ≤ p.rem
    by_cases h : (p.ch_is_digit || p.ch_is '.' || p.ch_is 'e' || p.ch_is 'E'
        || p.ch_is 'E' || p.ch_is '-' || p.ch_is '+') = true
    · rw [if_pos h]
      exact le_trans (cnf_rem_le n _) (cc_rem_le p)
    · rw [if_neg h]

theorem cnf_rem_lt (n : Nat) (p : JsonParser)
    (h : (p.ch_is_digit || p.ch_is '.' || p.ch_is 'e' || p.ch_is 'E'
        || p.ch_is 'E' || p.ch_is '-' || p.ch_is '+') = true)
    (hs : p.ch.isSome = true) :
    ((JsonParser.consume_num_fuel (n + 1) p).2).rem < p.rem := by
  show ((if _ then _ else _ : List Char × JsonParser).2).rem < p.rem
  rw [if_pos h]
  exact lt_of_le_of_lt (cnf_rem_le n _) (cc_rem_lt p hs)

theorem ssf_rem_le : ∀ n : Nat, ∀ p : JsonParser,
    ((JsonParser.string_scan_fuel n p).2.2).rem ≤ p.rem
  | 0, _ => le_refl _
  | n + 1, p => by
    show ((if p.eof then _ else if p.ch_is _ then _ else _
        : Bool × List Char × JsonParser).2.2).rem ≤ p.rem
    by_cases he : p.eof = true
    · rw [if_pos he]
    · rw [if_neg he]
      by_cases hq : p.ch_is '"' = true
      · rw [if_pos hq]
        exact cc_rem_le p
      · rw [if_neg hq]
        exact le_trans (ssf_rem_le n _) (cc_rem_le p)

/-! ### Per-production totality (result, final state, consumption) -/

theorem parse_bool_total (p : JsonParser) :
    ∃ r p', JsonParser.parse_bool p = (r, p') ∧ p'.rem ≤ p.rem
      ∧ ∀ v, r = Except.ok v → p'.rem < p.rem := by
  have hw := cw_rem_le p
  by_cases hf : (p.consume_whitespace).ch_is 'f' = true
  · refine ⟨Except.ok (JsonValue.Bool false),
      (JsonParser.consume_text "false".toList p.consume_whitespace).2, ?_, ?_, ?_⟩
    · simp only [JsonParser.parse_bool, hf, if_true]
    · exact le_trans (ct_rem_le _ _) hw
    · intro v _
      have hnws := ch_is_not_ws _ 'f' hf (by decide)
      exact lt_of_lt_of_le (ct_rem_lt "false".toList 'f' _ rfl hf hnws) hw
  · by_cases ht : (p.consume_whitespace).ch_is 't' = true
    · refine ⟨Except.ok (JsonValue.Bool true),
        (JsonParser.consume_text "true".toList p.consume_whitespace).2, ?_, ?_, ?_⟩
      · simp only [JsonParser.parse_bool, hf, ht, Bool.false_eq_true, if_false, if_true]
      · exact le_trans (ct_rem_le _ _) hw
      · intro v _
        have hnws := ch_is_not_ws _ 't' ht (by decide)
        exact lt_of_lt_of_le (ct_rem_lt "true".toList 't' _ rfl ht hnws) hw
    · refine ⟨(p.consume_whitespace).error ErrorCode.ExpectedBool,
        p.consume_whitespace, ?_, hw, ?_⟩
      · simp only [JsonParser.parse_bool, hf, ht, Bool.false_eq_true, if_false]
      · intro v hv
        exact absurd hv (by simp [JsonParser.error])

theorem parse_string_total (p : JsonParser) :
    ∃ r p', JsonParser.parse_string p = (r, p') ∧ p'.rem ≤ p.rem
      ∧ ∀ v, r = Except.ok v → p'.rem < p.rem := by
  have hw := cw_rem_le p
  by_cases hq : (p.consume_whitespace).ch_is '"' = true
  · have hlt : ((p.consume_whitespace).consume_char).2.rem < p.rem :=
      lt_of_lt_of_le (cc_rem_lt _ (ch_is_isSome _ '"' hq)) hw
    have hsc := ssf_rem_le ((((p.consume_whitespace).consume_char).2).rem + 1)
      ((p.consume_whitespace).consume_char).2
    rcases hs : JsonParser.string_scan_fuel ((((p.consume_whitespace).consume_char).2).rem + 1)
      ((p.consume_whitespace).consume_char).2 with ⟨b, s, p3⟩
    simp only [hs] at hsc
    cases b with
    | true =>
      refine ⟨Except.ok (JsonValue.Str s), p3, ?_, by omega, ?_⟩
      · simp only [JsonParser.parse_string, hq, if_true, hs]
      · intro v _
        omega
    | false =>
      refine ⟨p3.error ErrorCode.UnclosedStringLiteral, p3, ?_, by omega, ?_⟩
      · simp only [JsonParser.parse_string, hq, if_true, hs, Bool.false_eq_true, if_false]
      · intro v hv
        exact absurd hv (by simp [JsonParser.error])
  · refine ⟨(p.consume_whitespace).error ErrorCode.UnclosedStringLiteral,
      p.consume_whitespace, ?_, hw, ?_⟩
    · simp only [JsonParser.parse_string, hq, Bool.false_eq_true, if_false]
    · intro v hv
      exact absurd hv (by simp [JsonParser.error])

theorem parse_string_ok_shape (p : JsonParser) (kv : JsonValue) (p' : JsonParser)
    (h : JsonParser.parse_string p = (Except.ok kv, p')) : ∃ s, kv = JsonValue.Str s := by
  by_cases hq : (p.consume_whitespace).ch_is '"' = true
  · rcases hs : JsonParser.string_scan_fuel ((((p.consume_whitespace).consume_char).2).rem + 1)
      ((p.consume_whitespace).consume_char).2 with ⟨b, s, p3⟩
    cases b with
    | true =>
      have he : JsonParser.parse_string p = (Except.ok (JsonValue.Str s), p3) := by
        simp only [JsonParser.parse_string, hq, if_true, hs]
      rw [he] at h
      have := congrArg Prod.fst h
      simp only at this
      exact ⟨s, (Except.ok.inj this).symm⟩
    | false =>
      have he : JsonParser.parse_string p
          = (p3.error ErrorCode.UnclosedStringLiteral, p3) := by
        simp only [JsonParser.parse_string, hq, if_true, hs, Bool.false_eq_true, if_false]
      rw [he] at h
      exact absurd (congrArg Prod.fst h) (by simp [JsonParser.error])
  · have he : JsonParser.parse_string p
        = ((p.consume_whitespace).error ErrorCode.UnclosedStringLiteral,
            p.consume_whitespace) := by
      simp only [JsonParser.parse_string, hq, Bool.false_eq_true, if_false]
    rw [he] at h
    exact absurd (congrArg Prod.fst h) (by simp [JsonParser.error])

theorem parse_num_total (p : JsonParser) :
    ∃ r p', JsonParser.parse_num p = (r, p') ∧ p'.rem ≤ p.rem
      ∧ ∀ v, r = Except.ok v → p'.rem < p.rem := by
  have hw := cw_rem_le p
  by_cases hg : ((p.consume_whitespace).ch_is_digit || (p.consume_whitespace).ch_is '-')
      = true
  · have hnws : (p.consume_whitespace).ch_is_whitespace = false := by
      rcases Bool.or_eq_true_iff.mp hg with hd | hm
      · exact ch_is_digit_not_ws _ hd
      · exact ch_is_not_ws _ '-' hm (by decide)
    have hnoop : (p.consume_whitespace).consume_whitespace = p.consume_whitespace :=
      cw_noop_of _ hnws
    have hcn : JsonParser.consume_num p.consume_whitespace
        = JsonParser.consume_num_fuel ((p.consume_whitespace).rem + 1)
            p.consume_whitespace := by
      unfold JsonParser.consume_num
      rw [hnoop]
    have hbig : ((p.consume_whitespace).ch_is_digit || (p.consume_whitespace).ch_is '.'
        || (p.consume_whitespace).ch_is 'e' || (p.consume_whitespace).ch_is 'E'
        || (p.consume_whitespace).ch_is 'E' || (p.consume_whitespace).ch_is '-'
        || (p.consume_whitespace).ch_is '+') = true := by
      rcases Bool.or_eq_true_iff.mp hg with hd | hm
      · simp [hd]
      · simp [hm]
    have hsome : (p.consume_whitespace).ch.isSome = true := by
      rcases Bool.or_eq_true_iff.mp hg with hd | hm
      · exact ch_is_digit_isSome _ hd
      · exact ch_is_isSome _ '-' hm
    have hlt := cnf_rem_lt ((p.consume_whitespace).rem) p.consume_whitespace hbig hsome
    rcases hc : JsonParser.consume_num_fuel ((p.consume_whitespace).rem + 1)
      p.consume_whitespace with ⟨tok, p2⟩
    simp only [hc] at hlt
    rcases hr : rust_parse_f64 tok with _ | x
    · refine ⟨p2.error ErrorCode.NumberParsing, p2, ?_, by omega, ?_⟩
      · simp only [JsonParser.parse_num, hg, if_true, hcn, hc, hr]
      · intro v hv
        exact absurd hv (by simp [JsonParser.error])
    · refine ⟨Except.ok (JsonValue.Num x), p2, ?_, by omega, ?_⟩
      · simp only [JsonParser.parse_num, hg, if_true, hcn, hc, hr]
      · intro v _
        omega
  · refine ⟨(p.consume_whitespace).error ErrorCode.NumberParsing,
      p.consume_whitespace, ?_, hw, ?_⟩
    · simp only [JsonParser.parse_num, hg, Bool.false_eq_true, if_false]
    · intro v hv
      exact absurd hv (by simp [JsonParser.error])

theorem parse_null_total (p : JsonParser) :
    ∃ r p', JsonParser.parse_null p = (r, p') ∧ p'.rem ≤ p.rem
      ∧ ∀ v, r = Except.ok v → p'.rem < p.rem := by
  have hle := ct_rem_le "null".toList p
  rcases hct : JsonParser.consume_text "null".toList p with ⟨r, p2⟩
  rw [hct] at hle
  cases r with
  | some buf =>
    refine ⟨Except.ok JsonValue.Null, p2, ?_, hle, ?_⟩
    · simp only [JsonParser.parse_null, hct]
    · intro v _
      exact ct_some_lt "null".toList p buf p2 (by simp) hct
  | none =>
    refine ⟨p2.error ErrorCode.ExpectedNull, p2, ?_, hle, ?_⟩
    · simp only [JsonParser.parse_null, hct]
    · intro v hv
      exact absurd hv (by simp [JsonParser.error])

/-! ### Mutual totality of the fueled parsers -/

mutual

theorem pv_total : ∀ n : Nat, ∀ p : JsonParser, 3 * p.rem + 3 ≤ n →
    ∃ r p', JsonParser.parse_value n p = some (r, p') ∧ p'.rem ≤ p.rem
      ∧ ∀ v, r = Except.ok v → p'.rem < p.rem
  | n + 1, p, h => by
    obtain ⟨r1, p1, he1, hl1, hs1⟩ := parse_bool_total p
    obtain ⟨r2, p2, he2, hl2, hs2⟩ := parse_string_total p1
    obtain ⟨r3, p3, he3, hl3, hs3⟩ := parse_num_total p2
    obtain ⟨r4, p4, he4, hl4, hs4⟩ := parse_null_total p3
    obtain ⟨r5, p5, he5, hl5, hs5⟩ := pa_total n p4 (by omega)
    obtain ⟨r6, p6, he6, hl6, hs6⟩ := po_total n p5 (by omega)
    rcases hmr : JsonParser.most_recent_loop [r1, r2, r3, r4, r5, r6] none with _ | r
    · rw [most_recent_loop_spec] at hmr
      exact absurd hmr (by simp)
    · refine ⟨r, p6, ?_, by omega, ?_⟩
      · rw [parse_value_step]
        simp only [he1, he2, he3, he4, he5, he6, hmr]
      · intro v hv
        subst hv
        rw [most_recent_loop_spec] at hmr
        have hchain := Option.some.inj hmr
        cases r1 with
        | ok v1 => have := hs1 v1 rfl; omega
        | error e1 =>
          cases r2 with
          | ok v2 => have := hs2 v2 rfl; omega
          | error e2 =>
            cases r3 with
            | ok v3 => have := hs3 v3 rfl; omega
            | error e3 =>
              cases r4 with
              | ok v4 => have := hs4 v4 rfl; omega
              | error e4 =>
                cases r5 with
                | ok v5 => have := hs5 v5 rfl; omega
                | error e5 =>
                  cases r6 with
                  | ok v6 => have := hs6 v6 rfl; omega
                  | error e6 => exact absurd hchain (by simp)

theorem pa_total : ∀ n : Nat, ∀ p : JsonParser, 3 * p.rem + 2 ≤ n →
    ∃ r p', JsonParser.parse_array n p = some (r, p') ∧ p'.rem ≤ p.rem
      ∧ ∀ v, r = Except.ok v → p'.rem < p.rem
  | n + 1, p, h => by
    by_cases hb : p.ch_is '[' = true
    · have hlt := cc_rem_lt p (ch_is_isSome p '[' hb)
      obtain ⟨r, p', he, hl⟩ := al_total n (p.consume_char).2 [] (by omega)
      refine ⟨r, p', ?_, by omega, ?_⟩
      · rw [parse_array_step, if_pos hb, he]
      · intro v _
        omega
    · refine ⟨p.error ErrorCode.UnclosedArray, p, ?_, le_refl _, ?_⟩
      · rw [parse_array_step, if_neg hb]
      · intro v hv
        exact absurd hv (by simp [JsonParser.error])

theorem al_total : ∀ n : Nat, ∀ p : JsonParser, ∀ acc : List JsonValue,
    3 * p.rem + 4 ≤ n →
    ∃ r p', JsonParser.parse_array_loop n p acc = some (r, p') ∧ p'.rem ≤ p.rem
  | n + 1, p, acc, h => by
    obtain ⟨r, p', hepv, hlpv, hspv⟩ := pv_total n p (by omega)
    cases r with
    | error e =>
      refine ⟨Except.error e, p', ?_, hlpv⟩
      rw [parse_array_loop_step]
      simp only [hepv]
    | ok v =>
      have hlt := hspv v rfl
      by_cases hc : p'.ch_is ',' = true
      · have hlt2 := cc_rem_lt p' (ch_is_isSome p' ',' hc)
        obtain ⟨r2, p2, he2, hl2⟩ := al_total n (p'.consume_char).2 (acc ++ [v]) (by omega)
        refine ⟨r2, p2, ?_, by omega⟩
        rw [parse_array_loop_step]
        simp only [hepv, hc, if_true, he2]
      · by_cases hbr : p'.ch_is ']' = true
        · refine ⟨Except.ok (JsonValue.Array (acc ++ [v])), (p'.consume_char).2, ?_, ?_⟩
          · rw [parse_array_loop_step]
            simp only [hepv, hc, hbr, Bool.false_eq_true, if_false, if_true]
          · have := cc_rem_le p'
            omega
        · obtain ⟨r2, p2, he2, hl2⟩ := al_total n p' (acc ++ [v]) (by omega)
          refine ⟨r2, p2, ?_, by omega⟩
          rw [parse_array_loop_step]
          simp only [hepv, hc, hbr, Bool.false_eq_true, if_false, he2]

theorem po_total : ∀ n : Nat, ∀ p : JsonParser, 3 * p.rem + 2 ≤ n →
    ∃ r p', JsonParser.parse_object n p = some (r, p') ∧ p'.rem ≤ p.rem
      ∧ ∀ v, r = Except.ok v → p'.rem < p.rem
  | n + 1, p, h => by
    by_cases he : p.eof = true
    · refine ⟨p.error ErrorCode.EndOfFile, p, ?_, le_refl _, ?_⟩
      · rw [parse_object_step, if_pos he]
      · intro v hv
        exact absurd hv (by simp [JsonParser.error])
    · have hw := cw_rem_le p
      by_cases hb : (p.consume_whitespace).ch_is '{' = true
      · have hlt := cc_rem_lt p.consume_whitespace (ch_is_isSome _ '{' hb)
        obtain ⟨r, p', her, hl⟩ := ol_total n ((p.consume_whitespace).consume_char).2 []
          (by omega)
        refine ⟨r, p', ?_, by omega, ?_⟩
        · rw [parse_object_step, if_neg he]
          simp only [hb, if_true, her]
        · intro v _
          omega
      · refine ⟨(p.consume_whitespace).error ErrorCode.UnclosedObject,
          p.consume_whitespace, ?_, hw, ?_⟩
        · rw [parse_object_step, if_neg he]
          simp only [hb, Bool.false_eq_true, if_false]
        · intro v hv
          exact absurd hv (by simp [JsonParser.error])

theorem ol_total : ∀ n : Nat, ∀ p : JsonParser, ∀ acc : List (List Char × JsonValue),
    3 * p.rem + 4 ≤ n →
    ∃ r p', JsonParser.parse_object_loop n p acc = some (r, p') ∧ p'.rem ≤ p.rem
  | n + 1, p, acc, h => by
    have hw1 := cw_rem_le p
    obtain ⟨rs, p2, hes, hls, hss⟩ := parse_string_total p.consume_whitespace
    cases rs with
    | error e =>
      refine ⟨Except.error e, p2, ?_, by omega⟩
      rw [parse_object_loop_step]
      simp only [hes]
    | ok kv =>
      obtain ⟨s, rfl⟩ := parse_string_ok_shape p.consume_whitespace kv p2 hes
      have hstr := hss (JsonValue.Str s) rfl
      by_cases hcolon : (p2.consume_whitespace).ch_is ':' = true
      · have hw3 := cw_rem_le p2
        have hnoop : (p2.consume_whitespace).consume_whitespace = p2.consume_whitespace :=
          cw_noop_of _ (ch_is_not_ws _ ':' hcolon (by decide))
        have hlt5 := cc_rem_lt p2.consume_whitespace (ch_is_isSome _ ':' hcolon)
        obtain ⟨rv, p6, hev, hlv, hsv⟩ := pv_total n
          ((p2.consume_whitespace).consume_char).2 (by omega)
        cases rv with
        | error e =>
          refine ⟨Except.error e, p6, ?_, by omega⟩
          rw [parse_object_loop_step]
          simp only [hes, hcolon, Bool.not_true, Bool.false_eq_true, if_false, hnoop, hev]
        | ok v =>
          have hltv := hsv v rfl
          have hw7 := cw_rem_le p6
          by_cases hc : (p6.consume_whitespace).ch_is ',' = true
          · have hlt7 := cc_rem_lt p6.consume_whitespace (ch_is_isSome _ ',' hc)
            obtain ⟨r2, p8, he2, hl2⟩ := ol_total n ((p6.consume_whitespace).consume_char).2
              (map_insert acc s v) (by omega)
            refine ⟨r2, p8, ?_, by omega⟩
            rw [parse_object_loop_step]
            simp only [hes, hcolon, Bool.not_true, Bool.false_eq_true, if_false, hnoop,
              hev, hc, if_true, he2]
          · by_cases hbr : (p6.consume_whitespace).ch_is '}' = true
            · refine ⟨Except.ok (JsonValue.Object (map_insert acc s v)),
                ((p6.consume_whitespace).consume_char).2, ?_, ?_⟩
              · rw [parse_object_loop_step]
                simp only [hes, hcolon, Bool.not_true, Bool.false_eq_true, if_false, hnoop,
                  hev, hc, hbr, if_true]
              · have := cc_rem_le p6.consume_whitespace
                omega
            · obtain ⟨r2, p8, he2, hl2⟩ := ol_total n p6.consume_whitespace
                (map_insert acc s v) (by omega)
              refine ⟨r2, p8, ?_, by omega⟩
              rw [parse_object_loop_step]
              simp only [hes, hcolon, Bool.not_true, Bool.false_eq_true, if_false, hnoop,
                hev, hc, hbr, he2]
      · refine ⟨(p2.consume_whitespace).error ErrorCode.ExpectedColon,
          p2.consume_whitespace, ?_, ?_⟩
        · rw [parse_object_loop_step]
          simp only [hes, hcolon, Bool.not_false, if_true]
        · have := cw_rem_le p2
          omega

end

/-! ## Helpers for the top-level claims: any-suffix success lemmas -/

/-- Is the document a bare numeric literal?  (The one kind whose token a
following character can extend.) -/
def isNumDoc : Doc → Bool
  | .num _ => true
  | _ => false

/-- `consume_text` on a full keyword match with an arbitrary suffix: the
trailing whitespace skip eats into the suffix, so only a `rem` bound is
known about the final state. -/
theorem consume_text_match_any (text ws0 g : List Char) (q : Nat × Nat)
    (hw0 : ws_only ws0 = true) (htext : head_not_ws text = true) (htne : text ≠ []) :
    ∃ buf p', JsonParser.consume_text text (at_pos q (ws0 ++ (text ++ g)))
      = (some buf, p') ∧ p'.rem ≤ g.length := by
  unfold JsonParser.consume_text
  obtain ⟨q1, h1⟩ := consume_ws_at ws0 q (text ++ g) hw0
    (head_not_ws_append text g htne htext)
  rw [h1]
  obtain ⟨buf, q2, h2⟩ := ctg_match text g q1
  simp only [h2]
  refine ⟨buf, (at_pos q2 g).consume_whitespace, rfl, ?_⟩
  have h3 := cw_rem_le (at_pos q2 g)
  rw [at_pos_rem] at h3
  exact h3

theorem parse_null_ok_any (ws0 g : List Char) (q : Nat × Nat)
    (hw0 : ws_only ws0 = true) :
    ∃ p', JsonParser.parse_null (at_pos q (ws0 ++ ("null".toList ++ g)))
      = (Except.ok JsonValue.Null, p') ∧ p'.rem ≤ g.length := by
  unfold JsonParser.parse_null
  obtain ⟨buf, p', h, hr⟩ := consume_text_match_any "null".toList ws0 g q hw0 (by rfl)
    (by simp)
  simp only [h]
  exact ⟨p', rfl, hr⟩

theorem parse_bool_true_any (ws0 g : List Char) (q : Nat × Nat)
    (hw0 : ws_only ws0 = true) :
    ∃ p', JsonParser.parse_bool (at_pos q (ws0 ++ ("true".toList ++ g)))
      = (Except.ok (JsonValue.Bool true), p') ∧ p'.rem ≤ g.length := by
  have htl : "true".toList = ['t', 'r', 'u', 'e'] := rfl
  unfold JsonParser.parse_bool
  rw [htl]
  obtain ⟨q1, h1⟩ := consume_ws_at ws0 q (['t', 'r', 'u', 'e'] ++ g) hw0 (by rfl)
  rw [h1]
  have h2 : (at_pos q1 (['t', 'r', 'u', 'e'] ++ g)).ch_is 'f' = false := by
    rw [ch_is_at]; rfl
  have h3 : (at_pos q1 (['t', 'r', 'u', 'e'] ++ g)).ch_is 't' = true := by
    rw [ch_is_at]; rfl
  simp only [h2, h3, Bool.false_eq_true, if_false, if_true]
  obtain ⟨buf, p', hct, hr⟩ := consume_text_match_any ['t', 'r', 'u', 'e'] [] g q1 rfl
    (by rfl) (by simp)
  simp only [List.nil_append] at hct
  simp only [hct]
  exact ⟨p', rfl, hr⟩

theorem parse_bool_false_any (ws0 g : List Char) (q : Nat × Nat)
    (hw0 : ws_only ws0 = true) :
    ∃ p', JsonParser.parse_bool (at_pos q (ws0 ++ ("false".toList ++ g)))
      = (Except.ok (JsonValue.Bool false), p') ∧ p'.rem ≤ g.length := by
  have hfl : "false".toList = ['f', 'a', 'l', 's', 'e'] := rfl
  unfold JsonParser.parse_bool
  rw [hfl]
  obtain ⟨q1, h1⟩ := consume_ws_at ws0 q (['f', 'a', 'l', 's', 'e'] ++ g) hw0 (by rfl)
  rw [h1]
  have h2 : (at_pos q1 (['f', 'a', 'l', 's', 'e'] ++ g)).ch_is 'f' = true := by
    rw [ch_is_at]; rfl
  simp only [h2, if_true]
  obtain ⟨buf, p', hct, hr⟩ := consume_text_match_any ['f', 'a', 'l', 's', 'e'] [] g q1 rfl
    (by rfl) (by simp)
  simp only [List.nil_append] at hct
  simp only [hct]
  exact ⟨p', rfl, hr⟩

/-- Lift a `parse_value` run at the standard fuel and start position to a
statement about `parse_text`. -/
theorem parse_text_of_pv (l : List Char) (r : JsonResult) (p' : JsonParser)
    (h : JsonParser.parse_value (3 * l.length + 3)
        (at_pos (step_pos (1, 0) l.head?) l) = some (r, p')) :
    parse_text l = some r := by
  unfold parse_text JsonParser.parse
  rw [new_at_pos, at_pos_rem, h]
  rfl

theorem parse_text_of_pv_any (l : List Char) (r : JsonResult)
    (h : ∀ q : Nat × Nat, ∃ p', JsonParser.parse_value (3 * l.length + 3) (at_pos q l)
      = some (r, p')) :
    parse_text l = some r := by
  obtain ⟨p', hp⟩ := h (step_pos (1, 0) l.head?)
  exact parse_text_of_pv l r p' hp

/-! ## Position ordering: the scan's position strictly advances -/

/-- Strict order on (line, column) positions: a later line, or the same line
and a later column. -/
def pos_lt (a b : Nat × Nat) : Prop :=
  a.1 < b.1 ∨ (a.1 = b.1 ∧ a.2 < b.2)

theorem step_pos_lt (q : Nat × Nat) (oc : Option Char) : pos_lt q (step_pos q oc) := by
  unfold step_pos pos_lt
  by_cases h : oc = some '\n' <;> simp [h]

theorem pos_lt_trans (a b c : Nat × Nat) (h1 : pos_lt a b) (h2 : pos_lt b c) :
    pos_lt a c := by
  unfold pos_lt at h1 h2 ⊢
  omega

theorem foldl_step_pos_lt : ∀ l : List (Option Char), ∀ q : Nat × Nat, l ≠ [] →
    pos_lt q (List.foldl step_pos q l)
  | [c], q, _ => by simpa using step_pos_lt q c
  | c :: d :: l, q, _ => by
    have h1 := step_pos_lt q c
    have h2 := foldl_step_pos_lt (d :: l) (step_pos q c) (by simp)
    simp only [List.foldl_cons] at h2 ⊢
    exact pos_lt_trans _ _ _ h1 h2

/-- Starting the end-of-scan position computation one `consume_char` in is the
same as folding the step over every lookahead the scan sees: one per content
character and a final `none` at end of input. -/
theorem scan_end_shift (q : Nat × Nat) (rest : List Char) :
    scan_end_pos (step_pos q rest.head?) rest
      = List.foldl step_pos q (rest.map some ++ [none]) := by
  cases rest with
  | nil => rfl
  | cons c l' => rfl

/-! ## The round-trip bridge: values the printer renders verbatim

`plain_char` marks characters `escape_default` emits unchanged;
`goodValue` marks values whose printed form is itself a well-formed
document denoting the same value: strings (and keys) of plain characters,
no numbers, nonempty containers, no duplicate keys.  `canon` maps such a
value to the whitespace-free `Doc` that renders to its printed text. -/

def plain_char (c : Char) : Bool :=
  decide (0x20 ≤ c.toNat) && decide (c.toNat ≤ 0x7e) && !(c == '"') && !(c == '\\')
    && !(c == '\'')

theorem plain_no_quote (c : Char) (h : plain_char c = true) : (!(c == '"')) = true := by
  simp only [plain_char, Bool.and_eq_true] at h
  exact h.1.1.2

theorem escape_plain (c : Char) (h : plain_char c = true) : escape_default c = [c] := by
  simp only [plain_char, Bool.and_eq_true] at h
  obtain ⟨⟨⟨⟨hd1, hd2⟩, hnq⟩, hnb⟩, hna⟩ := h
  have h1 : 0x20 ≤ c.toNat := of_decide_eq_true hd1
  have h2 : c.toNat ≤ 0x7e := of_decide_eq_true hd2
  have hq : c ≠ '"' := by simpa using hnq
  have hb : c ≠ '\\' := by simpa using hnb
  have ha : c ≠ '\'' := by simpa using hna
  have ht : c ≠ '\t' := by intro he; subst he; exact absurd h1 (by decide)
  have hr : c ≠ '\r' := by intro he; subst he; exact absurd h1 (by decide)
  have hn : c ≠ '\n' := by intro he; subst he; exact absurd h1 (by decide)
  unfold escape_default
  rw [if_neg ht, if_neg hr, if_neg hn, if_neg hb, if_neg ha, if_neg hq, if_pos ⟨h1, h2⟩]

theorem escape_str_plain : ∀ s : List Char, s.all plain_char = true → escape_str s = s
  | [], _ => rfl
  | c :: s', h => by
    simp only [List.all_cons, Bool.and_eq_true] at h
    show escape_default c ++ escape_str s' = c :: s'
    rw [escape_plain c h.1, escape_str_plain s' h.2]
    rfl

theorem plain_all_no_quote (s : List Char) (h : s.all plain_char = true) :
    s.all (fun c => !(c == '"')) = true := by
  rw [List.all_eq_true] at h ⊢
  intro c hc
  exact plain_no_quote c (h c hc)

/-- No key occurs twice (key equality on the raw character lists). -/
def nodupKeys : List (List Char × JsonValue) → Bool
  | [] => true
  | (k, _) :: ms => !(ms.any (fun kv => kv.1 == k)) && nodupKeys ms

mutual

def goodValue : JsonValue → Bool
  | JsonValue.Null => true
  | JsonValue.Bool _ => true
  | JsonValue.Num _ => false
  | JsonValue.Str s => s.all plain_char
  | JsonValue.Array vs => !vs.isEmpty && goodList vs
  | JsonValue.Object ms => !ms.isEmpty && nodupKeys ms && goodMembers ms

def goodList : List JsonValue → Bool
  | [] => true
  | v :: vs => goodValue v && goodList vs

def goodMembers : List (List Char × JsonValue) → Bool
  | [] => true
  | (k, v) :: ms => k.all plain_char && goodValue v && goodMembers ms

end

theorem goodValue_num (n : F64) : goodValue (JsonValue.Num n) = false := rfl
theorem goodValue_str (s : List Char) :
    goodValue (JsonValue.Str s) = s.all plain_char := rfl
theorem goodValue_arr (vs : List JsonValue) :
    goodValue (JsonValue.Array vs) = (!vs.isEmpty && goodList vs) := rfl
theorem goodValue_obj (ms : List (List Char × JsonValue)) :
    goodValue (JsonValue.Object ms) = (!ms.isEmpty && nodupKeys ms && goodMembers ms) := rfl
theorem goodList_cons (v : JsonValue) (vs : List JsonValue) :
    goodList (v :: vs) = (goodValue v && goodList vs) := rfl
theorem goodMembers_cons (k : List Char) (v : JsonValue)
    (ms : List (List Char × JsonValue)) :
    goodMembers ((k, v) :: ms) = (k.all plain_char && goodValue v && goodMembers ms) := rfl

mutual

/-- The whitespace-free decorated document of a good value. -/
def canon : JsonValue → Doc
  | JsonValue.Null => Doc.null
  | JsonValue.Bool b => Doc.bool b
  | JsonValue.Num _ => Doc.null
  | JsonValue.Str s => Doc.str s
  | JsonValue.Array vs => Doc.arr (canonElems vs)
  | JsonValue.Object ms => Doc.obj (canonMembers ms)

def canonElems : List JsonValue → DocElems
  | [] => DocElems.last [] Doc.null []
  | [v] => DocElems.last [] (canon v) []
  | v :: vs => DocElems.cons [] (canon v) [] (canonElems vs)

def canonMembers : List (List Char × JsonValue) → DocMembers
  | [] => DocMembers.last [] [] [] [] Doc.null []
  | [(k, v)] => DocMembers.last [] k [] [] (canon v) []
  | (k, v) :: ms => DocMembers.cons [] k [] [] (canon v) [] (canonMembers ms)

end

theorem canonElems_single (v : JsonValue) :
    canonElems [v] = DocElems.last [] (canon v) [] := rfl
theorem canonElems_cons2 (v v' : JsonValue) (vs : List JsonValue) :
    canonElems (v :: v' :: vs) = DocElems.cons [] (canon v) [] (canonElems (v' :: vs)) := rfl
theorem canonMembers_single (k : List Char) (v : JsonValue) :
    canonMembers [(k, v)] = DocMembers.last [] k [] [] (canon v) [] := rfl
theorem canonMembers_cons2 (k : List Char) (v : JsonValue) (m' : List Char × JsonValue)
    (ms : List (List Char × JsonValue)) :
    canonMembers ((k, v) :: m' :: ms)
      = DocMembers.cons [] k [] [] (canon v) [] (canonMembers (m' :: ms)) := rfl

theorem dropLast_cons_ne {α : Type} (a : α) (l : List α) (h : l ≠ []) :
    (a :: l).dropLast = a :: l.dropLast := by
  cases l with
  | nil => exact absurd rfl h
  | cons b t => rfl

theorem dropLast_append_ne {α : Type} (A C : List α) (h : C ≠ []) :
    (A ++ C).dropLast = A ++ C.dropLast := by
  induction A with
  | nil => rfl
  | cons a A ih =>
    have hAC : A ++ C ≠ [] := by
      intro he
      rcases List.append_eq_nil.mp he with ⟨_, h2⟩
      exact h h2
    show (a :: (A ++ C)).dropLast = _
    rw [dropLast_cons_ne a (A ++ C) hAC, ih]
    rfl

theorem dropLast_app_single {α : Type} (l : List α) (a : α) : (l ++ [a]).dropLast = l := by
  rw [dropLast_append_ne l [a] (by simp)]
  simp

theorem print_items_ne_nil : ∀ vs : List JsonValue, vs ≠ [] → print_items vs ≠ []
  | [], h => absurd rfl h
  | v :: vs, _ => by
    show print_json v ++ ',' :: print_items vs ≠ []
    simp

theorem print_members_ne_nil : ∀ ms : List (List Char × JsonValue), ms ≠ [] →
    print_members ms ≠ []
  | [], h => absurd rfl h
  | (k, v) :: ms, _ => by
    show '"' :: (escape_str k ++ '"' :: ':' :: (print_json v ++ ',' :: print_members ms))
      ≠ []
    simp

theorem isEmpty_false_ne_nil {α : Type} (l : List α) (h : (!l.isEmpty) = true) :
    l ≠ [] := by
  rw [Bool.not_eq_true'] at h
  intro he
  subst he
  simp at h

mutual

theorem render_canon : ∀ v : JsonValue, goodValue v = true →
    renderDoc (canon v) = print_json v
  | JsonValue.Null, _ => rfl
  | JsonValue.Bool b, _ => by cases b <;> rfl
  | JsonValue.Num n, h => by
    rw [goodValue_num] at h
    simp at h
  | JsonValue.Str s, h => by
    rw [goodValue_str] at h
    show '"' :: (s ++ ['"']) = '"' :: (escape_str s ++ ['"'])
    rw [escape_str_plain s h]
  | JsonValue.Array vs, h => by
    rw [goodValue_arr, Bool.and_eq_true] at h
    obtain ⟨hne, hgl⟩ := h
    have hne' : vs ≠ [] := isEmpty_false_ne_nil vs hne
    show '[' :: renderElems (canonElems vs) = ('[' :: print_items vs).dropLast ++ [']']
    rw [renderElems_canon vs hgl hne',
      dropLast_cons_ne '[' (print_items vs) (print_items_ne_nil vs hne')]
    rfl
  | JsonValue.Object ms, h => by
    rw [goodValue_obj, Bool.and_eq_true, Bool.and_eq_true] at h
    obtain ⟨⟨hne, _⟩, hgm⟩ := h
    have hne' : ms ≠ [] := isEmpty_false_ne_nil ms hne
    show '{' :: renderMembers (canonMembers ms)
      = ('{' :: print_members ms).dropLast ++ ['}']
    rw [renderMembers_canon ms hgm hne',
      dropLast_cons_ne '{' (print_members ms) (print_members_ne_nil ms hne')]
    rfl

theorem renderElems_canon : ∀ vs : List JsonValue, goodList vs = true → vs ≠ [] →
    renderElems (canonElems vs) = (print_items vs).dropLast ++ [']']
  | [], _, hne => absurd rfl hne
  | [v], hgl, _ => by
    rw [goodList_cons, Bool.and_eq_true] at hgl
    rw [canonElems_single, renderElems_last, render_canon v hgl.1]
    have hp : print_items [v] = print_json v ++ [','] := rfl
    rw [hp, dropLast_app_single]
    simp
  | v :: v' :: vs, hgl, _ => by
    rw [goodList_cons, Bool.and_eq_true] at hgl
    obtain ⟨hgv, hgl'⟩ := hgl
    rw [canonElems_cons2, renderElems_cons, render_canon v hgv,
      renderElems_canon (v' :: vs) hgl' (by simp)]
    have hp : print_items (v :: v' :: vs) = print_json v ++ ',' :: print_items (v' :: vs) :=
      rfl
    rw [hp, dropLast_append_ne (print_json v) (',' :: print_items (v' :: vs)) (by simp),
      dropLast_cons_ne ',' (print_items (v' :: vs)) (print_items_ne_nil (v' :: vs) (by simp))]
    simp [List.append_assoc, List.cons_append, List.nil_append]

theorem renderMembers_canon : ∀ ms : List (List Char × JsonValue),
    goodMembers ms = true → ms ≠ [] →
    renderMembers (canonMembers ms) = (print_members ms).dropLast ++ ['}']
  | [], _, hne => absurd rfl hne
  | [(k, v)], hgm, _ => by
    rw [goodMembers_cons] at hgm
    simp only [Bool.and_eq_true] at hgm
    obtain ⟨⟨hk, hv⟩, _⟩ := hgm
    rw [canonMembers_single, renderMembers_last, render_canon v hv]
    have hp : print_members [(k, v)] = ('"' :: (k ++ '"' :: ':' :: print_json v)) ++ [','] := by
      show '"' :: (escape_str k ++ '"' :: ':' :: (print_json v ++ ',' :: print_members []))
        = _
      rw [escape_str_plain k hk]
      show '"' :: (k ++ '"' :: ':' :: (print_json v ++ [','])) = _
      simp [List.append_assoc, List.cons_append]
    rw [hp, dropLast_app_single]
    simp [List.append_assoc, List.cons_append, List.nil_append]
  | (k, v) :: m' :: ms', hgm, _ => by
    rw [goodMembers_cons] at hgm
    simp only [Bool.and_eq_true] at hgm
    obtain ⟨⟨hk, hv⟩, hgm'⟩ := hgm
    rw [canonMembers_cons2, renderMembers_cons, render_canon v hv,
      renderMembers_canon (m' :: ms') hgm' (by simp)]
    have hp : print_members ((k, v) :: m' :: ms')
        = ('"' :: (k ++ '"' :: ':' :: (print_json v ++ [','])))
          ++ print_members (m' :: ms') := by
      show '"' :: (escape_str k ++ '"' :: ':' :: (print_json v ++ ',' :: print_members (m' :: ms')))
        = _
      rw [escape_str_plain k hk]
      simp [List.append_assoc, List.cons_append]
    rw [hp, dropLast_append_ne _ _ (print_members_ne_nil (m' :: ms') (by simp))]
    simp [List.append_assoc, List.cons_append, List.nil_append]

end

mutual

theorem wf_canon : ∀ v : JsonValue, goodValue v = true → wfDoc (canon v) = true
  | JsonValue.Null, _ => rfl
  | JsonValue.Bool b, _ => by cases b <;> rfl
  | JsonValue.Num n, h => by
    rw [goodValue_num] at h
    simp at h
  | JsonValue.Str s, h => by
    rw [goodValue_str] at h
    show wfDoc (Doc.str s) = true
    rw [wfDoc_str]
    exact plain_all_no_quote s h
  | JsonValue.Array vs, h => by
    rw [goodValue_arr, Bool.and_eq_true] at h
    show wfElems (canonElems vs) = true
    exact wfElems_canon vs h.2 (isEmpty_false_ne_nil vs h.1)
  | JsonValue.Object ms, h => by
    rw [goodValue_obj, Bool.and_eq_true, Bool.and_eq_true] at h
    show wfMembers (canonMembers ms) = true
    exact wfMembers_canon ms h.2 (isEmpty_false_ne_nil ms h.1.1)

theorem wfElems_canon : ∀ vs : List JsonValue, goodList vs = true → vs ≠ [] →
    wfElems (canonElems vs) = true
  | [], _, hne => absurd rfl hne
  | [v], hgl, _ => by
    rw [goodList_cons, Bool.and_eq_true] at hgl
    rw [canonElems_single, wfElems_last]
    simp [wf_canon v hgl.1, ws_only]
  | v :: v' :: vs, hgl, _ => by
    rw [goodList_cons, Bool.and_eq_true] at hgl
    obtain ⟨hgv, hgl'⟩ := hgl
    rw [canonElems_cons2, wfElems_cons]
    simp [wf_canon v hgv, wfElems_canon (v' :: vs) hgl' (by simp), ws_only]

theorem wfMembers_canon : ∀ ms : List (List Char × JsonValue), goodMembers ms = true →
    ms ≠ [] → wfMembers (canonMembers ms) = true
  | [], _, hne => absurd rfl hne
  | [(k, v)], hgm, _ => by
    rw [goodMembers_cons] at hgm
    simp only [Bool.and_eq_true] at hgm
    obtain ⟨⟨hk, hv⟩, _⟩ := hgm
    rw [canonMembers_single, wfMembers_last]
    simp [wf_canon v hv, plain_all_no_quote k hk, ws_only]
  | (k, v) :: m' :: ms', hgm, _ => by
    rw [goodMembers_cons] at hgm
    simp only [Bool.and_eq_true] at hgm
    obtain ⟨⟨hk, hv⟩, hgm'⟩ := hgm
    rw [canonMembers_cons2, wfMembers_cons]
    simp [wf_canon v hv, plain_all_no_quote k hk,
      wfMembers_canon (m' :: ms') hgm' (by simp), ws_only]

end

theorem map_insert_fresh (acc : List (List Char × JsonValue)) (k : List Char)
    (v : JsonValue) (h : ∀ kv2 ∈ acc, kv2.1 ≠ k) :
    map_insert acc k v = acc ++ [(k, v)] := by
  unfold map_insert
  have ha : acc.any (fun kv => kv.1 == k) = false := by
    rw [List.any_eq_false]
    intro x hx
    exact fun hb => h x hx (by simpa using hb)
  rw [ha]
  simp

/-- Keys of `ms` do not occur in `acc`. -/
def keys_disjoint (acc ms : List (List Char × JsonValue)) : Prop :=
  ∀ kv ∈ ms, ∀ kv2 ∈ acc, kv2.1 ≠ kv.1

mutual

theorem val_canon : ∀ v : JsonValue, goodValue v = true → valDoc (canon v) = v
  | JsonValue.Null, _ => rfl
  | JsonValue.Bool b, _ => rfl
  | JsonValue.Num n, h => by
    rw [goodValue_num] at h
    simp at h
  | JsonValue.Str s, _ => rfl
  | JsonValue.Array vs, h => by
    rw [goodValue_arr, Bool.and_eq_true] at h
    show JsonValue.Array (valElems (canonElems vs)) = JsonValue.Array vs
    rw [valElems_canon vs h.2 (isEmpty_false_ne_nil vs h.1)]
  | JsonValue.Object ms, h => by
    rw [goodValue_obj, Bool.and_eq_true, Bool.and_eq_true] at h
    obtain ⟨⟨hne, hnd⟩, hgm⟩ := h
    show JsonValue.Object (valMembers [] (canonMembers ms)) = JsonValue.Object ms
    rw [valMembers_canon ms [] hgm hnd (fun kv _ kv2 h2 => absurd h2 (by simp))
      (isEmpty_false_ne_nil ms hne)]
    rfl

theorem valElems_canon : ∀ vs : List JsonValue, goodList vs = true → vs ≠ [] →
    valElems (canonElems vs) = vs
  | [], _, hne => absurd rfl hne
  | [v], hgl, _ => by
    rw [goodList_cons, Bool.and_eq_true] at hgl
    rw [canonElems_single, valElems_last, val_canon v hgl.1]
  | v :: v' :: vs, hgl, _ => by
    rw [goodList_cons, Bool.and_eq_true] at hgl
    rw [canonElems_cons2, valElems_cons, val_canon v hgl.1,
      valElems_canon (v' :: vs) hgl.2 (by simp)]

theorem valMembers_canon : ∀ ms : List (List Char × JsonValue),
    ∀ acc : List (List Char × JsonValue), goodMembers ms = true → nodupKeys ms = true →
    keys_disjoint acc ms → ms ≠ [] →
    valMembers acc (canonMembers ms) = acc ++ ms
  | [], _, _, _, _, hne => absurd rfl hne
  | [(k, v)], acc, hgm, _, hdisj, _ => by
    rw [goodMembers_cons] at hgm
    simp only [Bool.and_eq_true] at hgm
    obtain ⟨⟨_, hv⟩, _⟩ := hgm
    rw [canonMembers_single, valMembers_last, val_canon v hv,
      map_insert_fresh acc k v (fun kv2 h2 => hdisj (k, v) (by simp) kv2 h2)]
  | (k, v) :: m' :: ms', acc, hgm, hnd, hdisj, _ => by
    rw [goodMembers_cons] at hgm
    simp only [Bool.and_eq_true] at hgm
    obtain ⟨⟨_, hv⟩, hgm'⟩ := hgm
    have hnd1 : ((m' :: ms').any (fun kv => kv.1 == k)) = false := by
      have h0 : nodupKeys ((k, v) :: m' :: ms')
          = (!((m' :: ms').any (fun kv => kv.1 == k)) && nodupKeys (m' :: ms')) := rfl
      rw [h0, Bool.and_eq_true, Bool.not_eq_true'] at hnd
      exact hnd.1
    have hnd2 : nodupKeys (m' :: ms') = true := by
      have h0 : nodupKeys ((k, v) :: m' :: ms')
          = (!((m' :: ms').any (fun kv => kv.1 == k)) && nodupKeys (m' :: ms')) := rfl
      rw [h0, Bool.and_eq_true] at hnd
      exact hnd.2
    have hdisj' : keys_disjoint (acc ++ [(k, v)]) (m' :: ms') := by
      intro kv hkv kv2 hkv2
      rcases List.mem_append.mp hkv2 with h2 | h2
      · exact hdisj kv (List.mem_cons_of_mem _ hkv) kv2 h2
      · have hkv2e : kv2 = (k, v) := by simpa using h2
        subst hkv2e
        have h3 := (List.any_eq_false.mp hnd1) kv hkv
        intro he
        exact h3 (by simp [he.symm])
    rw [canonMembers_cons2, valMembers_cons, val_canon v hv,
      map_insert_fresh acc k v (fun kv2 h2 => hdisj (k, v) (by simp) kv2 h2),
      valMembers_canon (m' :: ms') (acc ++ [(k, v)]) hgm' hnd2 hdisj' (by simp)]
    simp

end

/-! ## Claim theorems -/

/-- C1 (code bug): contrary to the claim (and the spec), the empty containers
are *rejected*: `parse "[]"` fails with `UnclosedObject` at 1:2 and
`parse "{}"` fails with `UnclosedStringLiteral` at 1:2, because both loops
parse an element (`parse_value` / a string key) before ever checking for the
closing bracket. -/
theorem c1_empty_containers_rejected :
    parse_text "[]".toList
      = some (Except.error { reason := ErrorCode.UnclosedObject, line := 1, col := 2 })
    ∧ parse_text "{}".toList
      = some (Except.error
          { reason := ErrorCode.UnclosedStringLiteral, line := 1, col := 2 }) :=
  ⟨by decide, by decide⟩

/-- C2: `parse_value` evaluates the six productions in the fixed order
boolean, string, number, null, array, object (each on its predecessor's
final state) and returns the first success; when all six fail it returns the
result of the last attempted production - `r6`, the object production's
error (hypotheses `h5`/`h6` are fuel-adequacy of the two recursive
productions, always satisfiable). -/
theorem c2_parse_value_dispatch (n : Nat) (p p1 p2 p3 p4 p5 p6 : JsonParser)
    (r1 r2 r3 r4 r5 r6 : JsonResult)
    (h1 : JsonParser.parse_bool p = (r1, p1))
    (h2 : JsonParser.parse_string p1 = (r2, p2))
    (h3 : JsonParser.parse_num p2 = (r3, p3))
    (h4 : JsonParser.parse_null p3 = (r4, p4))
    (h5 : JsonParser.parse_array n p4 = some (r5, p5))
    (h6 : JsonParser.parse_object n p5 = some (r6, p6)) :
    JsonParser.parse_value (n + 1) p = some (
      (match r1 with
       | Except.ok v => Except.ok v
       | Except.error _ =>
         match r2 with
         | Except.ok v => Except.ok v
         | Except.error _ =>
           match r3 with
           | Except.ok v => Except.ok v
           | Except.error _ =>
             match r4 with
             | Except.ok v => Except.ok v
             | Except.error _ =>
               match r5 with
               | Except.ok v => Except.ok v
               | Except.error _ => r6),
      p6) := by
  rw [parse_value_step]
  simp only [h1, h2, h3, h4, h5, h6, most_recent_loop_spec]
  cases r1 <;> cases r2 <;> cases r3 <;> cases r4 <;> cases r5 <;> rfl

/-- Witness for C2 at the concrete input `"x"`, where all six productions
fail and the object production's `UnclosedObject` error surfaces. -/
theorem c2_witness :
    JsonParser.parse_value 2 (JsonParser.new "x".toList)
      = some (Except.error { reason := ErrorCode.UnclosedObject, line := 1, col := 1 },
          { iter := [], line := 1, col := 1, ch := some 'x' }) :=
  c2_parse_value_dispatch 1 (JsonParser.new "x".toList) _ _ _ _ _ _ _ _ _ _ _ _
    rfl rfl rfl rfl rfl rfl

/-- C3 (code bug): `parse_bool` returns `Ok(Bool(false))` on `"fx"` and
`Ok(Bool(true))` on `"tru"` because it discards the result of
`consume_text`; the claimed `ExpectedBool` error appears only when the first
non-whitespace character is neither `f` nor `t` (third conjunct), and the two
full keywords do parse (last conjuncts). -/
theorem c3_parse_bool_partial_keywords :
    (JsonParser.parse_bool (JsonParser.new "fx".toList)).1
      = Except.ok (JsonValue.Bool false)
    ∧ (JsonParser.parse_bool (JsonParser.new "tru".toList)).1
      = Except.ok (JsonValue.Bool true)
    ∧ (JsonParser.parse_bool (JsonParser.new "x".toList)).1
      = Except.error { reason := ErrorCode.ExpectedBool, line := 1, col := 1 }
    ∧ (JsonParser.parse_bool (JsonParser.new "true".toList)).1
      = Except.ok (JsonValue.Bool true)
    ∧ (JsonParser.parse_bool (JsonParser.new "false".toList)).1
      = Except.ok (JsonValue.Bool false) :=
  ⟨by decide, by decide, by decide, by decide, by decide⟩

/-- C4 (counterexample): whitespace insertion between structural tokens is
*not* always harmless.  `[{"a":1},2]` parses, but inserting one space
between the object value and the following comma makes the parse fail
(`UnclosedObject` at 1:10): the object production is the last one
`parse_value` runs, so no later failing production skips the whitespace
before the array loop looks for `,` or `]`. -/
theorem c4_counterexample :
    parse_text "[\x7b\"a\":1\x7d,2]".toList
      = some (Except.ok (JsonValue.Array
          [JsonValue.Object [(['a'], JsonValue.Num ⟨1, 0⟩)], JsonValue.Num ⟨2, 0⟩]))
    ∧ parse_text "[\x7b\"a\":1\x7d ,2]".toList
      = some (Except.error { reason := ErrorCode.UnclosedObject, line := 1, col := 10 }) :=
  ⟨by decide, by decide⟩

/-- C5 (counterexample): the document `"a\nb"` (a string containing a literal
newline, no backslash-escape in the input) parses to `Str "a\nb"`, but
`print_json` renders it through Rust's `Debug` escaping as `"a\nb"` with a
two-character `\n` escape, which the escape-blind `parse_string` reads back
verbatim: the round-trip yields `Str "a\\nb"`, a different value. -/
theorem c5_counterexample :
    parse_text "\"a\nb\"".toList = some (Except.ok (JsonValue.Str ['a', '\n', 'b']))
    ∧ print_json (JsonValue.Str ['a', '\n', 'b']) = "\"a\\nb\"".toList
    ∧ parse_text (print_json (JsonValue.Str ['a', '\n', 'b']))
      = some (Except.ok (JsonValue.Str ['a', '\\', 'n', 'b']))
    ∧ JsonValue.Str ['a', '\n', 'b'] ≠ JsonValue.Str ['a', '\\', 'n', 'b'] :=
  ⟨by decide, by decide, by decide, by decide⟩

/-- C6: `{"a":1,"a":2}` parses to a one-entry object mapping `"a"` to `2`,
and in general a `map_insert` of an existing key overwrites the earlier
value (last write wins). -/
theorem c6_duplicate_keys_last_write_wins :
    parse_text "\x7b\"a\":1,\"a\":2\x7d".toList
      = some (Except.ok (JsonValue.Object [(['a'], JsonValue.Num ⟨2, 0⟩)]))
    ∧ ∀ (m : List (List Char × JsonValue)) (k : List Char) (v : JsonValue),
        map_get (map_insert m k v) k = some v :=
  ⟨by decide, map_get_insert⟩

/-- C7 (counterexample): trailing data *can* change a successful parse.
`"1"` parses to `1`, but appending `"2"` yields the different value `12`,
and appending `"e"` turns success into an error (the extended numeric token
`1e` is rejected, and the remaining productions then fail, surfacing the
object production's `EndOfFile`). -/
theorem c7_counterexample :
    parse_text "1".toList = some (Except.ok (JsonValue.Num ⟨1, 0⟩))
    ∧ parse_text "12".toList = some (Except.ok (JsonValue.Num ⟨12, 0⟩))
    ∧ parse_text "1e".toList
      = some (Except.error { reason := ErrorCode.EndOfFile, line := 1, col := 3 }) :=
  ⟨by decide, by decide, by decide⟩

/-- C8: misusing the index operators never yields a value: integer-indexing a
non-array, integer-indexing an array out of range, and string-indexing
anything that is not an object containing the key all hit the modelled panic
(`none`), never a silent `Null`/default. -/
theorem c8_index_misuse :
    (∀ (v : JsonValue) (i : Nat),
      (∀ xs, v ≠ JsonValue.Array xs) → v.index_usize i = none)
    ∧ (∀ (xs : List JsonValue) (i : Nat), xs.length ≤ i →
        (JsonValue.Array xs).index_usize i = none)
    ∧ (∀ (v : JsonValue) (k : List Char),
        (∀ m, v = JsonValue.Object m → map_get m k = none) → v.index_str k = none) := by
  refine ⟨?_, ?_, ?_⟩
  · intro v i hv
    cases v with
    | Array xs => exact absurd rfl (hv xs)
    | _ => rfl
  · intro xs i hlen
    show xs.get? i = none
    exact List.get?_eq_none.mpr hlen
  · intro v k hv
    cases v with
    | Object m => simp [JsonValue.index_str, JsonValue.find, hv m rfl]
    | _ => rfl

/-- Witness for C8: a boolean indexed by `0`, an empty array indexed by `0`,
and an array string-indexed by `"key"` all yield the modelled panic. -/
theorem c8_witness :
    JsonValue.index_usize (JsonValue.Bool true) 0 = none
    ∧ JsonValue.index_usize (JsonValue.Array []) 0 = none
    ∧ JsonValue.index_str (JsonValue.Array []) "key".toList = none :=
  ⟨c8_index_misuse.1 (JsonValue.Bool true) 0 (fun xs h => JsonValue.noConfusion h),
   c8_index_misuse.2.1 [] 0 (by decide),
   c8_index_misuse.2.2 (JsonValue.Array []) "key".toList
     (fun m h => JsonValue.noConfusion h)⟩

/-- C10: `parse_array` does not require commas - `"[1 2]"` parses
successfully to the two-element array `[1, 2]` (the whitespace is consumed
by the failing trailing productions inside `parse_value`, and the loop
simply continues when the lookahead is neither `,` nor `]`). -/
theorem c10_array_elements_without_commas :
    parse_text "[1 2]".toList
      = some (Except.ok (JsonValue.Array
          [JsonValue.Num ⟨1, 0⟩, JsonValue.Num ⟨2, 0⟩])) := by
  decide

/-- C4 (corrected): whitespace inserted at the between-token positions of a
document (as recorded by a decorated `Doc`) never changes the parse result -
except that an array element that is an object must not be followed by
whitespace before its `,` or `]` (the `wfDoc` side condition), the case the
counterexample exhibits.  The result is `valDoc t`, which does not depend on
any of the whitespace runs. -/
theorem c4_whitespace_insensitive (t : Doc) (wsA wsB : List Char)
    (hwf : wfDoc t = true) (hA : ws_only wsA = true) (hB : ws_only wsB = true) :
    parse_text (wsA ++ (renderDoc t ++ wsB)) = some (Except.ok (valDoc t)) := by
  obtain ⟨q', h⟩ := pv_render t wsA wsB []
    (step_pos (1, 0) (wsA ++ (renderDoc t ++ (wsB ++ []))).head?)
    (3 * (wsA ++ (renderDoc t ++ (wsB ++ []))).length + 3) hwf hA hB (by rfl) (le_refl _)
  simp only [List.append_nil] at h
  exact parse_text_of_pv _ _ _ h

theorem c4_witness :
    parse_text " [ 1 ,\t\"a\" ]\n".toList
      = some (Except.ok (JsonValue.Array [JsonValue.Num ⟨1, 0⟩, JsonValue.Str ['a']])) := by
  have h := c4_whitespace_insensitive
    (Doc.arr (DocElems.cons [' '] (Doc.num ['1']) [' ']
      (DocElems.last ['\t'] (Doc.str ['a']) [' ']))) [' '] ['\n']
    (by decide) (by decide) (by decide)
  have hl : ([' '] : List Char)
      ++ (renderDoc (Doc.arr (DocElems.cons [' '] (Doc.num ['1']) [' ']
        (DocElems.last ['\t'] (Doc.str ['a']) [' ']))) ++ ['\n'])
      = " [ 1 ,\t\"a\" ]\n".toList := by decide
  have hv : valDoc (Doc.arr (DocElems.cons [' '] (Doc.num ['1']) [' ']
      (DocElems.last ['\t'] (Doc.str ['a']) [' '])))
      = JsonValue.Array [JsonValue.Num ⟨1, 0⟩, JsonValue.Str ['a']] := by decide
  rw [hl, hv] at h
  exact h

/-- C7 (corrected): arbitrary trailing data after a complete document is
ignored - the parse still returns the document's value - except when the
document is a bare numeric literal and the trailing data starts with a
character of `consume_num`'s class (`0-9 . e E + -`), which extends the
numeric token (the counterexample's case). -/
theorem c7_trailing_data (t : Doc) (wsA g : List Char) (hwf : wfDoc t = true)
    (hA : ws_only wsA = true) (hg : isNumDoc t = true → head_not_num g = true) :
    parse_text (wsA ++ (renderDoc t ++ g)) = some (Except.ok (valDoc t)) := by
  cases t with
  | null =>
    simp only [renderDoc_null, valDoc_null]
    refine parse_text_of_pv_any _ _ ?_
    intro q0
    obtain ⟨q1, h1⟩ := parse_bool_fail wsA ("null".toList ++ g) q0 hA (by rfl)
      (head_ne_of_eq (by rfl) 'f' (by decide)) (head_ne_of_eq (by rfl) 't' (by decide))
    obtain ⟨q2, h2⟩ := parse_string_fail0 ("null".toList ++ g) q1 (by rfl)
      (head_ne_of_eq (by rfl) '"' (by decide))
    obtain ⟨q3, h3⟩ := parse_num_fail0 ("null".toList ++ g) q2 (by rfl) (by rfl)
    have h4' := parse_null_ok_any [] g q3 rfl
    simp only [List.nil_append] at h4'
    obtain ⟨p4, h4, hr4⟩ := h4'
    have hglen : g.length ≤ (wsA ++ ("null".toList ++ g)).length := by
      simp only [List.length_append]
      omega
    obtain ⟨r5, p5, he5, hl5, _⟩ :=
      pa_total (3 * (wsA ++ ("null".toList ++ g)).length + 2) p4 (by omega)
    obtain ⟨r6, p6, he6, hl6, _⟩ :=
      po_total (3 * (wsA ++ ("null".toList ++ g)).length + 2) p5 (by omega)
    refine ⟨p6, ?_⟩
    rw [show 3 * (wsA ++ ("null".toList ++ g)).length + 3
      = (3 * (wsA ++ ("null".toList ++ g)).length + 2) + 1 from rfl, parse_value_step]
    simp only [h1, h2, h3, h4, he5, he6, most_recent_loop_spec]
  | bool b =>
    cases b with
    | true =>
      simp only [renderDoc_true, valDoc_bool]
      refine parse_text_of_pv_any _ _ ?_
      intro q0
      obtain ⟨p1, h1, hr1⟩ := parse_bool_true_any wsA g q0 hA
      obtain ⟨r2, p2, he2, hl2, _⟩ := parse_string_total p1
      obtain ⟨r3, p3, he3, hl3, _⟩ := parse_num_total p2
      obtain ⟨r4, p4, he4, hl4, _⟩ := parse_null_total p3
      have hglen : g.length ≤ (wsA ++ ("true".toList ++ g)).length := by
        simp only [List.length_append]
        omega
      obtain ⟨r5, p5, he5, hl5, _⟩ :=
        pa_total (3 * (wsA ++ ("true".toList ++ g)).length + 2) p4 (by omega)
      obtain ⟨r6, p6, he6, hl6, _⟩ :=
        po_total (3 * (wsA ++ ("true".toList ++ g)).length + 2) p5 (by omega)
      refine ⟨p6, ?_⟩
      rw [show 3 * (wsA ++ ("true".toList ++ g)).length + 3
        = (3 * (wsA ++ ("true".toList ++ g)).length + 2) + 1 from rfl, parse_value_step]
      simp only [h1, he2, he3, he4, he5, he6, most_recent_loop_spec]
    | false =>
      simp only [renderDoc_false, valDoc_bool]
      refine parse_text_of_pv_any _ _ ?_
      intro q0
      obtain ⟨p1, h1, hr1⟩ := parse_bool_false_any wsA g q0 hA
      obtain ⟨r2, p2, he2, hl2, _⟩ := parse_string_total p1
      obtain ⟨r3, p3, he3, hl3, _⟩ := parse_num_total p2
      obtain ⟨r4, p4, he4, hl4, _⟩ := parse_null_total p3
      have hglen : g.length ≤ (wsA ++ ("false".toList ++ g)).length := by
        simp only [List.length_append]
        omega
      obtain ⟨r5, p5, he5, hl5, _⟩ :=
        pa_total (3 * (wsA ++ ("false".toList ++ g)).length + 2) p4 (by omega)
      obtain ⟨r6, p6, he6, hl6, _⟩ :=
        po_total (3 * (wsA ++ ("false".toList ++ g)).length + 2) p5 (by omega)
      refine ⟨p6, ?_⟩
      rw [show 3 * (wsA ++ ("false".toList ++ g)).length + 3
        = (3 * (wsA ++ ("false".toList ++ g)).length + 2) + 1 from rfl, parse_value_step]
      simp only [h1, he2, he3, he4, he5, he6, most_recent_loop_spec]
  | num tok =>
    simp only [wfDoc_num, Bool.and_eq_true] at hwf
    obtain ⟨⟨hstart, hall⟩, hsome⟩ := hwf
    obtain ⟨x, hx⟩ := Option.isSome_iff_exists.mp hsome
    simp only [renderDoc_num, valDoc_num, hx, Option.getD_some]
    refine parse_text_of_pv_any _ _ ?_
    intro q0
    have happ := head_num_start_append tok g hstart
    have htokne : tok ≠ [] := by
      obtain ⟨c, t', rfl, _⟩ := num_start_head tok hstart
      simp
    obtain ⟨q1, h1⟩ := parse_bool_fail wsA (tok ++ g) q0 hA (num_start_not_ws _ happ)
      (num_start_ne _ happ 'f' (by decide) (by decide))
      (num_start_ne _ happ 't' (by decide) (by decide))
    obtain ⟨q2, h2⟩ := parse_string_fail0 (tok ++ g) q1 (num_start_not_ws _ happ)
      (num_start_ne _ happ '"' (by decide) (by decide))
    have h3' := parse_num_ok [] tok g q2 x rfl htokne hstart hall hx (hg rfl)
    simp only [List.nil_append] at h3'
    obtain ⟨q3, h3⟩ := h3'
    have hr3 : (at_pos q3 g).rem = g.length := at_pos_rem q3 g
    obtain ⟨r4, p4, he4, hl4, _⟩ := parse_null_total (at_pos q3 g)
    have hglen : g.length ≤ (wsA ++ (tok ++ g)).length := by
      simp only [List.length_append]
      omega
    obtain ⟨r5, p5, he5, hl5, _⟩ :=
      pa_total (3 * (wsA ++ (tok ++ g)).length + 2) p4 (by omega)
    obtain ⟨r6, p6, he6, hl6, _⟩ :=
      po_total (3 * (wsA ++ (tok ++ g)).length + 2) p5 (by omega)
    refine ⟨p6, ?_⟩
    rw [show 3 * (wsA ++ (tok ++ g)).length + 3
      = (3 * (wsA ++ (tok ++ g)).length + 2) + 1 from rfl, parse_value_step]
    simp only [h1, h2, h3, he4, he5, he6, most_recent_loop_spec]
  | str s =>
    simp only [wfDoc_str] at hwf
    simp only [renderDoc_str, valDoc_str]
    have hsh : ('"' :: (s ++ ['"'])) ++ g = '"' :: (s ++ ('"' :: g)) := by simp
    rw [hsh]
    refine parse_text_of_pv_any _ _ ?_
    intro q0
    obtain ⟨q1, h1⟩ := parse_bool_fail wsA ('"' :: (s ++ ('"' :: g))) q0 hA (by rfl)
      (head_ne_of_eq (by rfl) 'f' (by decide)) (head_ne_of_eq (by rfl) 't' (by decide))
    obtain ⟨q2, h2⟩ := parse_string_ok0 s g q1 hwf
    have hr2 : (at_pos q2 g).rem = g.length := at_pos_rem q2 g
    obtain ⟨r3, p3, he3, hl3, _⟩ := parse_num_total (at_pos q2 g)
    obtain ⟨r4, p4, he4, hl4, _⟩ := parse_null_total p3
    have hglen : g.length ≤ (wsA ++ ('"' :: (s ++ ('"' :: g)))).length := by
      simp only [List.length_append, List.length_cons]
      omega
    obtain ⟨r5, p5, he5, hl5, _⟩ :=
      pa_total (3 * (wsA ++ ('"' :: (s ++ ('"' :: g)))).length + 2) p4 (by omega)
    obtain ⟨r6, p6, he6, hl6, _⟩ :=
      po_total (3 * (wsA ++ ('"' :: (s ++ ('"' :: g)))).length + 2) p5 (by omega)
    refine ⟨p6, ?_⟩
    rw [show 3 * (wsA ++ ('"' :: (s ++ ('"' :: g)))).length + 3
      = (3 * (wsA ++ ('"' :: (s ++ ('"' :: g)))).length + 2) + 1 from rfl, parse_value_step]
    simp only [h1, h2, he3, he4, he5, he6, most_recent_loop_spec]
  | arr es =>
    simp only [wfDoc_arr] at hwf
    simp only [renderDoc_arr, valDoc_arr]
    have hsh : ('[' :: renderElems es) ++ g = '[' :: (renderElems es ++ g) := by simp
    rw [hsh]
    refine parse_text_of_pv_any _ _ ?_
    intro q0
    obtain ⟨q1, h1⟩ := parse_bool_fail wsA ('[' :: (renderElems es ++ g)) q0 hA (by rfl)
      (head_ne_of_eq (by rfl) 'f' (by decide)) (head_ne_of_eq (by rfl) 't' (by decide))
    obtain ⟨q2, h2⟩ := parse_string_fail0 ('[' :: (renderElems es ++ g)) q1 (by rfl)
      (head_ne_of_eq (by rfl) '"' (by decide))
    obtain ⟨q3, h3⟩ := parse_num_fail0 ('[' :: (renderElems es ++ g)) q2 (by rfl) (by rfl)
    obtain ⟨q4, h4⟩ := parse_null_fail0 ('[' :: (renderElems es ++ g)) q3 (by rfl)
      (head_ne_of_eq (by rfl) 'n' (by decide))
    obtain ⟨q5, hal⟩ := al_render es g []
      (step_pos q4 (renderElems es ++ g).head?)
      (3 * (wsA ++ ('[' :: (renderElems es ++ g))).length + 1) hwf
      (by simp only [List.length_append, List.length_cons]; omega)
    have h5 : JsonParser.parse_array (3 * (wsA ++ ('[' :: (renderElems es ++ g))).length + 2)
        (at_pos q4 ('[' :: (renderElems es ++ g)))
        = some (Except.ok (JsonValue.Array (valElems es)), at_pos q5 g) := by
      rw [show 3 * (wsA ++ ('[' :: (renderElems es ++ g))).length + 2
        = (3 * (wsA ++ ('[' :: (renderElems es ++ g))).length + 1) + 1 from rfl,
        parse_array_step]
      have hch : (at_pos q4 ('[' :: (renderElems es ++ g))).ch_is '[' = true := by
        rw [ch_is_at]; rfl
      simp only [hch, if_true, consume_char_at, List.tail_cons, hal, List.nil_append]
    obtain ⟨r6, p6, he6, hl6, _⟩ :=
      po_total (3 * (wsA ++ ('[' :: (renderElems es ++ g))).length + 2) (at_pos q5 g)
        (by rw [at_pos_rem]; simp only [List.length_append, List.length_cons]; omega)
    refine ⟨p6, ?_⟩
    rw [show 3 * (wsA ++ ('[' :: (renderElems es ++ g))).length + 3
      = (3 * (wsA ++ ('[' :: (renderElems es ++ g))).length + 2) + 1 from rfl,
      parse_value_step]
    simp only [h1, h2, h3, h4, h5, he6, most_recent_loop_spec]
  | obj ms =>
    simp only [wfDoc_obj] at hwf
    simp only [renderDoc_obj, valDoc_obj]
    have hsh : ('{' :: renderMembers ms) ++ g = '{' :: (renderMembers ms ++ g) := by simp
    rw [hsh]
    refine parse_text_of_pv_any _ _ ?_
    intro q0
    obtain ⟨q1, h1⟩ := parse_bool_fail wsA ('{' :: (renderMembers ms ++ g)) q0 hA (by rfl)
      (head_ne_of_eq (by rfl) 'f' (by decide)) (head_ne_of_eq (by rfl) 't' (by decide))
    obtain ⟨q2, h2⟩ := parse_string_fail0 ('{' :: (renderMembers ms ++ g)) q1 (by rfl)
      (head_ne_of_eq (by rfl) '"' (by decide))
    obtain ⟨q3, h3⟩ := parse_num_fail0 ('{' :: (renderMembers ms ++ g)) q2 (by rfl) (by rfl)
    obtain ⟨q4, h4⟩ := parse_null_fail0 ('{' :: (renderMembers ms ++ g)) q3 (by rfl)
      (head_ne_of_eq (by rfl) 'n' (by decide))
    have h5 : JsonParser.parse_array (3 * (wsA ++ ('{' :: (renderMembers ms ++ g))).length + 2)
        (at_pos q4 ('{' :: (renderMembers ms ++ g)))
        = some (Except.error ⟨ErrorCode.UnclosedArray, q4.1, q4.2⟩,
            at_pos q4 ('{' :: (renderMembers ms ++ g))) :=
      parse_array_fail (3 * (wsA ++ ('{' :: (renderMembers ms ++ g))).length + 1)
        ('{' :: (renderMembers ms ++ g)) q4 (head_ne_of_eq (by rfl) '[' (by decide))
    obtain ⟨q6, hol⟩ := ol_render ms g []
      (step_pos q4 (renderMembers ms ++ g).head?)
      (3 * (wsA ++ ('{' :: (renderMembers ms ++ g))).length + 1) hwf
      (by simp only [List.length_append, List.length_cons]; omega)
    have h6 : JsonParser.parse_object (3 * (wsA ++ ('{' :: (renderMembers ms ++ g))).length + 2)
        (at_pos q4 ('{' :: (renderMembers ms ++ g)))
        = some (Except.ok (JsonValue.Object (valMembers [] ms)), at_pos q6 g) := by
      rw [show 3 * (wsA ++ ('{' :: (renderMembers ms ++ g))).length + 2
        = (3 * (wsA ++ ('{' :: (renderMembers ms ++ g))).length + 1) + 1 from rfl,
        parse_object_step]
      have hemp : (at_pos q4 ('{' :: (renderMembers ms ++ g))).eof = false := by
        rw [eof_at]; rfl
      have hnoop := consume_ws_noop q4 ('{' :: (renderMembers ms ++ g)) (by rfl)
      have hch : (at_pos q4 ('{' :: (renderMembers ms ++ g))).ch_is '{' = true := by
        rw [ch_is_at]; rfl
      simp only [hemp, Bool.false_eq_true, if_false, hnoop, hch, if_true,
        consume_char_at, List.tail_cons, hol]
    refine ⟨at_pos q6 g, ?_⟩
    rw [show 3 * (wsA ++ ('{' :: (renderMembers ms ++ g))).length + 3
      = (3 * (wsA ++ ('{' :: (renderMembers ms ++ g))).length + 2) + 1 from rfl,
      parse_value_step]
    simp only [h1, h2, h3, h4, h5, h6, most_recent_loop_spec]

theorem c7_witness :
    parse_text "\"hi\"garbage!".toList = some (Except.ok (JsonValue.Str ['h', 'i'])) := by
  have h := c7_trailing_data (Doc.str ['h', 'i']) [] "garbage!".toList (by decide)
    (by decide) (by decide)
  have hl : ([] : List Char) ++ (renderDoc (Doc.str ['h', 'i']) ++ "garbage!".toList)
      = "\"hi\"garbage!".toList := by decide
  have hv : valDoc (Doc.str ['h', 'i']) = JsonValue.Str ['h', 'i'] := by decide
  rw [hl, hv] at h
  exact h

/-- C9 (confirmed): when a string literal is opened by `"` and no closing `"`
appears before end of input, `parse_string` reports `UnclosedStringLiteral`
at the position where scanning stopped: the fold of one position step per
consumed character (each content character, plus the final step at end of
input) - the end-of-input position, which is never the opening quote's
position `q`. -/
theorem c9_unclosed_string_error_position (q : Nat × Nat) (rest : List Char)
    (hnq : rest.all (fun c => !(c == '"')) = true) :
    JsonParser.parse_string (at_pos q ('"' :: rest))
      = (Except.error ⟨ErrorCode.UnclosedStringLiteral,
          (List.foldl step_pos q (rest.map some ++ [none])).1,
          (List.foldl step_pos q (rest.map some ++ [none])).2⟩,
        at_pos (List.foldl step_pos q (rest.map some ++ [none])) [])
    ∧ List.foldl step_pos q (rest.map some ++ [none]) ≠ q := by
  constructor
  · unfold JsonParser.parse_string
    rw [consume_ws_noop q ('"' :: rest) (by rfl)]
    have hcq : (at_pos q ('"' :: rest)).ch_is '"' = true := by rw [ch_is_at]; rfl
    simp only [hcq, if_true, consume_char_at, List.tail_cons, List.head?_cons, at_pos_rem]
    have hscan := ssf_unclosed rest (step_pos q rest.head?) (rest.length + 1)
      (by omega) hnq
    simp only [hscan, Bool.false_eq_true, if_false]
    rw [scan_end_shift]
    rfl
  · have h := foldl_step_pos_lt (rest.map some ++ [none]) q (by simp)
    intro he
    rw [he] at h
    unfold pos_lt at h
    omega

theorem c9_witness :
    JsonParser.parse_string (at_pos (2, 5) ('"' :: ['a', 'b']))
      = (Except.error ⟨ErrorCode.UnclosedStringLiteral, 2, 8⟩, at_pos (2, 8) [])
    ∧ ((2, 8) : Nat × Nat) ≠ (2, 5) := by
  have h := c9_unclosed_string_error_position (2, 5) ['a', 'b'] (by decide)
  have he : List.foldl step_pos (2, 5) ((['a', 'b']).map some ++ [none]) = (2, 8) := by
    decide
  rw [he] at h
  exact h

/-- C5 (corrected): rendering a `Value` with `print_json` and re-parsing
returns the structurally equal `Value` - for values whose strings and object
keys contain only characters the `Debug` renderer emits verbatim (printable
ASCII other than `"`, `\` and `'`), with no numeric literals, nonempty
containers (the C1 bug rejects empty ones) and no duplicate keys, as captured
by `goodValue`. -/
theorem c5_round_trip (v : JsonValue) (hv : goodValue v = true) :
    parse_text (print_json v) = some (Except.ok v) := by
  have hr := render_canon v hv
  have hw := wf_canon v hv
  have hval := val_canon v hv
  obtain ⟨q', h⟩ := pv_render (canon v) [] [] []
    (step_pos (1, 0) (([] : List Char) ++ (renderDoc (canon v) ++ (([] : List Char) ++ []))).head?)
    (3 * (([] : List Char) ++ (renderDoc (canon v) ++ (([] : List Char) ++ []))).length + 3)
    hw rfl rfl (by rfl) (le_refl _)
  simp only [List.nil_append, List.append_nil] at h
  rw [hr, hval] at h
  exact parse_text_of_pv _ _ _ h

theorem c5_witness :
    goodValue (JsonValue.Object [(['a'], JsonValue.Str ['x'])]) = true
    ∧ parse_text (print_json (JsonValue.Object [(['a'], JsonValue.Str ['x'])]))
      = some (Except.ok (JsonValue.Object [(['a'], JsonValue.Str ['x'])])) :=
  ⟨by decide, c5_round_trip (JsonValue.Object [(['a'], JsonValue.Str ['x'])]) (by decide)⟩
